import Mathlib

/-
Verification of the drawing module of a pygame reimplementation
(src/pygame/draw.py).  The module rasterizes rectangles, polygons, lines
and polylines into a surface's pixel buffer, honouring the surface's clip
rectangle.

Modelling conventions:
* Coordinates, colors and pixel indices are integers (`ℤ`).
* Python-2 floor division on integers (`a / b`) is `Int.fdiv`;
  Python `int()` applied to a real quantity truncates toward zero.
  Real-valued slope arithmetic in the Cohen-Sutherland clipper is modelled
  exactly: a slope is kept as an integer fraction pair and each
  `int(expr)` becomes an `Int.tdiv` of exact integer products
  (`Int.tdiv` truncates toward zero, matching Python `int()`).
* The external SDL surface is modelled by its interface: a geometry record
  (bounds, clip rectangle, pitch in pixels, bytes per pixel, and an
  abstract RGBA-to-pixel mapping) plus a flat pixel buffer `ℤ → ℤ`.
  `SDL_FillRect` clips internally to the surface's clip rectangle and
  bounds, as the specification states for the `fill_rect` collaborator.
* Each drawing operation is embedded as a pure function from the surface
  geometry and the call arguments to the list of write events it performs
  (rectangle fills and raw single-pixel pokes, in order) together with its
  outcome: a normal return value (`Option Rct`, `none` being Python
  `None`, the "nothing drawn" signal) or a raised error.  The final buffer
  is obtained by applying the event list to the initial buffer.
-/

namespace Pygame

/-- Rectangle record (SDL_Rect / pygame Rect): origin and extent. -/
structure Rct where
  x : ℤ
  y : ℤ
  w : ℤ
  h : ℤ
  deriving DecidableEq, Repr

/-- Surface geometry, the interface of the external SDL surface object:
pixel bounds `w × h`, current clip rectangle, row stride `pitch` counted in
pixels (the source divides the byte pitch by the bytes per pixel), bytes
per pixel, and the abstract pixel-format mapping used by `SDL_MapRGBA`.
The pixel buffer itself is kept separately as a flat function `ℤ → ℤ`
because the drawing code never reads it. -/
structure Surface where
  w : ℤ
  h : ℤ
  clip : Rct
  pitch : ℤ
  bpp : ℤ
  mapRGBA : ℤ → ℤ → ℤ → ℤ → ℤ

/-- Validity of a surface: positive bounds, pitch at least the width, and
the clip rectangle contained in the pixel bounds (an SDL invariant). -/
def Surface.Valid (s : Surface) : Prop :=
  0 < s.w ∧ 0 < s.h ∧ s.w ≤ s.pitch ∧
  0 ≤ s.clip.x ∧ 0 ≤ s.clip.y ∧
  s.clip.x + s.clip.w ≤ s.w ∧ s.clip.y + s.clip.h ≤ s.h

instance (s : Surface) : Decidable s.Valid := by
  unfold Surface.Valid; infer_instance

/-- Errors raised by the drawing functions.  The names follow the
specification's taxonomy; in the source they are a string exception
(`_get_color`), `ValueError` (point-count checks), `NotImplementedError`
(3-byte pixel formats on the thin-line fast path) and `AssertionError`
(odd active-edge count in the polygon fill). -/
inductive DrawErr where
  | invalidColor
  | insufficientPoints
  | unsupportedFormat
  | evenCountAssert
  deriving DecidableEq, Repr

/-- Color argument accepted by the drawing functions: an RGB or RGBA tuple,
an already-mapped pixel integer, or anything else (invalid). -/
inductive ColorArg where
  | rgb (r g b : ℤ)
  | rgba (r g b a : ℤ)
  | px (n : ℤ)
  | other
  deriving DecidableEq, Repr

/-- Modelled from the spec: `pygame.base._rgba_from_obj` (not under src/)
converts a 3- or 4-channel tuple to an RGBA quadruple (alpha defaulting to
255) and yields nothing for any other argument (spec section 4.1). -/
def rgbaFromObj : ColorArg → Option (ℤ × ℤ × ℤ × ℤ)
  | .rgb r g b => some (r, g, b, 255)
  | .rgba r g b a => some (r, g, b, a)
  | _ => none

/-- Embedding of `_get_color`: tuples are mapped through the surface's
pixel format (`SDL_MapRGBA`, abstract), integers pass through, anything
else raises the invalid-color error. -/
def getColor (c : ColorArg) (s : Surface) : Except DrawErr ℤ :=
  match rgbaFromObj c with
  | some (r, g, b, a) => .ok (s.mapRGBA r g b a)
  | none =>
    match c with
    | .px n => .ok n
    | _ => .error .invalidColor

/-- Python-2 floor division on integers. -/
def pydiv (a b : ℤ) : ℤ := Int.fdiv a b

/-! ### Truncation toward zero (Python `int()` on an exact ratio)

`Int.tdiv n d` equals the truncation toward zero of the exact rational
`n / d`, which is what Python's `int()` does to the corresponding float
expression.  The hull lemmas below say that the truncation of a quantity
lying between `0` and an integer `D` again lies between `0` and `D`. -/

theorem tdiv_nonneg_le {n d D : ℤ} (hn : 0 ≤ n) (hd : 0 < d)
    (hD : n ≤ D * d) : 0 ≤ n.tdiv d ∧ n.tdiv d ≤ D := by
  have he : n.tdiv d = n / d := Int.tdiv_eq_ediv hn (le_of_lt hd)
  constructor
  · rw [he]; exact Int.ediv_nonneg hn (le_of_lt hd)
  · rw [he]
    calc n / d ≤ D * d / d := Int.ediv_le_ediv hd hD
    _ = D := Int.mul_ediv_cancel D (ne_of_gt hd)

theorem tdiv_nonpos_ge {n d D : ℤ} (hn : n ≤ 0) (hd : 0 < d)
    (hD : D * d ≤ n) : D ≤ n.tdiv d ∧ n.tdiv d ≤ 0 := by
  have h := @tdiv_nonneg_le (-n) d (-D) (by omega) hd (by nlinarith)
  rw [Int.neg_tdiv] at h
  omega

/-- Truncation of `(a * D) / c` lies between `0` and `D` whenever
`0 < a ≤ c` (the interpolation factor `a / c` lies in `(0, 1]`). -/
theorem tdiv_mul_hull (a c D : ℤ) (h1 : 0 < a) (h2 : a ≤ c) :
    min 0 D ≤ (a * D).tdiv c ∧ (a * D).tdiv c ≤ max 0 D := by
  rcases le_or_lt 0 D with hD | hD
  · have h := @tdiv_nonneg_le (a * D) c D (by positivity) (by omega)
      (by nlinarith)
    constructor
    · exact le_trans (min_le_left 0 D) h.1
    · exact le_trans h.2 (le_max_right 0 D)
  · have h := @tdiv_nonpos_ge (a * D) c D (by nlinarith) (by omega)
      (by nlinarith)
    constructor
    · exact le_trans (min_le_right 0 D) h.1
    · exact le_trans h.2 (le_max_left 0 D)

/-- Variant of `tdiv_mul_hull` with both the factor and the divisor
negative (`c ≤ a < 0`), as arises for the right/bottom clip steps. -/
theorem tdiv_mul_hull_neg (a c D : ℤ) (h1 : a < 0) (h2 : c ≤ a) :
    min 0 D ≤ (a * D).tdiv c ∧ (a * D).tdiv c ≤ max 0 D := by
  have h := tdiv_mul_hull (-a) (-c) D (by omega) (by omega)
  have he : ((-a) * D).tdiv (-c) = (a * D).tdiv c := by
    rw [show (-a) * D = -(a * D) by ring, Int.neg_tdiv, Int.tdiv_neg]
    ring
  rw [he] at h
  exact h

/-! ### Endpoint outcodes (`_endpoint_code`)

Bits: `_LEFT = 1`, `_RIGHT = 2`, `_TOP = 4`, `_BOTTOM = 8`.  The source
ors the bits in the order left, top, right, bottom. -/

/-- Embedding of `_endpoint_code x y l r t b`. -/
def epc (l r t b x y : ℤ) : ℕ :=
  ((((0 : ℕ) ||| (if x < l then 1 else 0)) ||| (if y < t then 4 else 0))
      ||| (if x > r then 2 else 0)) ||| (if y > b then 8 else 0)

/-- Outcode as a function of the four boundary comparisons, for finite
case analysis. -/
def cval (a b c d : Bool) : ℕ :=
  ((((0 : ℕ) ||| (cond a 1 0)) ||| (cond b 4 0)) ||| (cond c 2 0)) |||
    (cond d 8 0)

theorem epc_eq (l r t b x y : ℤ) :
    epc l r t b x y =
      cval (decide (x < l)) (decide (y < t)) (decide (x > r))
        (decide (y > b)) := by
  unfold epc cval
  by_cases h1 : x < l <;> by_cases h2 : y < t <;> by_cases h3 : x > r <;>
    by_cases h4 : y > b <;> simp [h1, h2, h3, h4]

theorem cval_zero (a b c d : Bool) :
    cval a b c d = 0 ↔ a = false ∧ b = false ∧ c = false ∧ d = false := by
  revert a b c d; decide

theorem cval_land_zero (a b c d a' b' c' d' : Bool) :
    cval a b c d &&& cval a' b' c' d' = 0 ↔
      (¬(a = true ∧ a' = true) ∧ ¬(b = true ∧ b' = true) ∧
       ¬(c = true ∧ c' = true) ∧ ¬(d = true ∧ d' = true)) := by
  revert a b c d a' b' c' d'; decide

theorem cval_bitL (a b c d : Bool) : cval a b c d &&& 1 ≠ 0 ↔ a = true := by
  revert a b c d; decide

theorem cval_bitR (a b c d : Bool) : cval a b c d &&& 2 ≠ 0 ↔ c = true := by
  revert a b c d; decide

theorem cval_bitT (a b c d : Bool) : cval a b c d &&& 4 ≠ 0 ↔ b = true := by
  revert a b c d; decide

theorem cval_bitB (a b c d : Bool) : cval a b c d &&& 8 ≠ 0 ↔ d = true := by
  revert a b c d; decide

/-- Zero outcode characterizes membership in the inclusive clip box. -/
theorem epc_zero_iff (l r t b x y : ℤ) :
    epc l r t b x y = 0 ↔ l ≤ x ∧ x ≤ r ∧ t ≤ y ∧ y ≤ b := by
  rw [epc_eq, cval_zero]
  simp only [decide_eq_false_iff_not, not_lt, gt_iff_lt]
  omega

theorem epc_land_zero_iff (l r t b x1 y1 x2 y2 : ℤ) :
    epc l r t b x1 y1 &&& epc l r t b x2 y2 = 0 ↔
      (¬(x1 < l ∧ x2 < l) ∧ ¬(y1 < t ∧ y2 < t) ∧
       ¬(x1 > r ∧ x2 > r) ∧ ¬(y1 > b ∧ y2 > b)) := by
  rw [epc_eq, epc_eq, cval_land_zero]
  simp only [decide_eq_true_eq]

/-! ### The Cohen-Sutherland clipper (`_clip_line`) -/

/-- Result of `_clip_line`: the clipped segment, the rejection sentinel
(the source's `None, None, None, None`), or fuel exhaustion of the
embedded loop (`out` never occurs for a genuine clip box; see the
termination theorem). -/
inductive ClipRes where
  | acc (x1 y1 x2 y2 : ℤ)
  | rej
  | out
  deriving DecidableEq, Repr

/-- One pass of the `_clip_line` loop body after the swap, clipping the
first endpoint against each boundary whose bit is set in its (stale)
outcode, in the source's order left, right, bottom, top.  The slope
`m = (y2 - y1) / (x2 - x1)` (or the dummy `1.0` when `x1 = x2`) is kept as
the exact fraction `mn / md`; each Python `int(expr)` is the truncation
toward zero of the corresponding exact ratio, written with `Int.tdiv`:
`int((l - x1) * m) = ((l - x1) * mn).tdiv md` and
`int((b - y1) / m) = ((b - y1) * md).tdiv mn`. -/
def cbCore (l r t b x1 y1 x2 y2 : ℤ) : ℤ × ℤ × ℤ × ℤ :=
  let c1 := epc l r t b x1 y1
  let mn := if x1 = x2 then 1 else y2 - y1
  let md := if x1 = x2 then 1 else x2 - x1
  let s1 : ℤ × ℤ :=
    if c1 &&& 1 ≠ 0 then (l, y1 + ((l - x1) * mn).tdiv md) else (x1, y1)
  let s2 : ℤ × ℤ :=
    if c1 &&& 2 ≠ 0 then (r, s1.2 + ((r - s1.1) * mn).tdiv md) else s1
  let s3 : ℤ × ℤ :=
    if c1 &&& 8 ≠ 0 then
      ((if s2.1 ≠ x2 then s2.1 + ((b - s2.2) * md).tdiv mn else s2.1), b)
    else s2
  let s4 : ℤ × ℤ :=
    if c1 &&& 4 ≠ 0 then
      ((if s3.1 ≠ x2 then s3.1 + ((t - s3.2) * md).tdiv mn else s3.1), t)
    else s3
  (s4.1, s4.2, x2, y2)

/-- Loop body of `_clip_line` including the endpoint swap: when the first
endpoint is already inside, the two endpoints are exchanged (and stay
exchanged in the returned tuple, as in the source). -/
def clipBody (l r t b x1 y1 x2 y2 : ℤ) : ℤ × ℤ × ℤ × ℤ :=
  if epc l r t b x1 y1 = 0 then cbCore l r t b x2 y2 x1 y1
  else cbCore l r t b x1 y1 x2 y2

/-- Fuel-indexed embedding of the `_clip_line` loop.  Each recursive step
is one pass of the `while True` loop; `out` is returned only if the fuel
runs out. -/
def clipLineF : ℕ → ℤ → ℤ → ℤ → ℤ → ℤ → ℤ → ℤ → ℤ → ClipRes
  | 0, _, _, _, _, _, _, _, _ => .out
  | n + 1, l, r, t, b, x1, y1, x2, y2 =>
    if epc l r t b x1 y1 = 0 ∧ epc l r t b x2 y2 = 0 then .acc x1 y1 x2 y2
    else if epc l r t b x1 y1 &&& epc l r t b x2 y2 ≠ 0 then .rej
    else
      let s := clipBody l r t b x1 y1 x2 y2
      clipLineF n l r t b s.1 s.2.1 s.2.2.1 s.2.2.2

/-- Embedding of `_clip_line` proper: eight loop passes always suffice for
a genuine clip box (see the termination theorem). -/
def clipLine (l r t b x1 y1 x2 y2 : ℤ) : ClipRes :=
  clipLineF 8 l r t b x1 y1 x2 y2

/-! ### Step lemmas for the clip loop -/

theorem clipF_acc {l r t b x1 y1 x2 y2 : ℤ} (n : ℕ)
    (h1 : epc l r t b x1 y1 = 0) (h2 : epc l r t b x2 y2 = 0) :
    clipLineF (n + 1) l r t b x1 y1 x2 y2 = .acc x1 y1 x2 y2 := by
  simp [clipLineF, h1, h2]

theorem clipF_rej {l r t b x1 y1 x2 y2 : ℤ} (n : ℕ)
    (h : epc l r t b x1 y1 &&& epc l r t b x2 y2 ≠ 0) :
    clipLineF (n + 1) l r t b x1 y1 x2 y2 = .rej := by
  have hnb : ¬(epc l r t b x1 y1 = 0 ∧ epc l r t b x2 y2 = 0) := by
    rintro ⟨ha, hb⟩; simp [ha, hb] at h
  simp [clipLineF, hnb, h]

theorem clipF_step {l r t b x1 y1 x2 y2 : ℤ} (n : ℕ)
    (h : ¬(epc l r t b x1 y1 = 0 ∧ epc l r t b x2 y2 = 0))
    (h2 : epc l r t b x1 y1 &&& epc l r t b x2 y2 = 0) :
    clipLineF (n + 1) l r t b x1 y1 x2 y2 =
      clipLineF n l r t b (clipBody l r t b x1 y1 x2 y2).1
        (clipBody l r t b x1 y1 x2 y2).2.1
        (clipBody l r t b x1 y1 x2 y2).2.2.1
        (clipBody l r t b x1 y1 x2 y2).2.2.2 := by
  simp [clipLineF, h, h2]

/-- More fuel never changes an outcome other than `out`. -/
theorem clipF_mono {l r t b : ℤ} :
    ∀ n m (x1 y1 x2 y2 : ℤ), n ≤ m →
      clipLineF n l r t b x1 y1 x2 y2 ≠ .out →
      clipLineF m l r t b x1 y1 x2 y2 = clipLineF n l r t b x1 y1 x2 y2 := by
  intro n
  induction n with
  | zero => intro m x1 y1 x2 y2 _ hne; exact absurd rfl hne
  | succ k ih =>
    intro m x1 y1 x2 y2 hle hne
    obtain ⟨m', rfl⟩ : ∃ m', m = m' + 1 := ⟨m - 1, by omega⟩
    by_cases hin : epc l r t b x1 y1 = 0 ∧ epc l r t b x2 y2 = 0
    · rw [clipF_acc m' hin.1 hin.2, clipF_acc k hin.1 hin.2]
    · by_cases hsh : epc l r t b x1 y1 &&& epc l r t b x2 y2 = 0
      · rw [clipF_step m' hin hsh, clipF_step k hin hsh] at *
        exact ih m' _ _ _ _ (by omega) hne
      · rw [clipF_rej m' hsh, clipF_rej k hsh]

theorem clipF_mono_ne {l r t b x1 y1 x2 y2 : ℤ} {n m : ℕ} (hle : n ≤ m)
    (hne : clipLineF n l r t b x1 y1 x2 y2 ≠ .out) :
    clipLineF m l r t b x1 y1 x2 y2 ≠ .out := by
  rw [clipF_mono n m x1 y1 x2 y2 hle hne]; exact hne

/-- The second endpoint is passed through `cbCore` unchanged. -/
theorem cbCore_snd (l r t b x1 y1 x2 y2 : ℤ) :
    (cbCore l r t b x1 y1 x2 y2).2.2 = (x2, y2) := rfl

/-! Literal bit tests used when evaluating `cbCore` under a known outcode. -/
@[simp] theorem land_1_1 : (1 : ℕ) &&& 1 = 1 := rfl
@[simp] theorem land_1_2 : (1 : ℕ) &&& 2 = 0 := rfl
@[simp] theorem land_1_8 : (1 : ℕ) &&& 8 = 0 := rfl
@[simp] theorem land_1_4 : (1 : ℕ) &&& 4 = 0 := rfl
@[simp] theorem land_2_1 : (2 : ℕ) &&& 1 = 0 := rfl
@[simp] theorem land_2_2 : (2 : ℕ) &&& 2 = 2 := rfl
@[simp] theorem land_2_8 : (2 : ℕ) &&& 8 = 0 := rfl
@[simp] theorem land_2_4 : (2 : ℕ) &&& 4 = 0 := rfl
@[simp] theorem land_4_1 : (4 : ℕ) &&& 1 = 0 := rfl
@[simp] theorem land_4_2 : (4 : ℕ) &&& 2 = 0 := rfl
@[simp] theorem land_4_8 : (4 : ℕ) &&& 8 = 0 := rfl
@[simp] theorem land_4_4 : (4 : ℕ) &&& 4 = 4 := rfl
@[simp] theorem land_5_1 : (5 : ℕ) &&& 1 = 1 := rfl
@[simp] theorem land_5_2 : (5 : ℕ) &&& 2 = 0 := rfl
@[simp] theorem land_5_8 : (5 : ℕ) &&& 8 = 0 := rfl
@[simp] theorem land_5_4 : (5 : ℕ) &&& 4 = 4 := rfl
@[simp] theorem land_6_1 : (6 : ℕ) &&& 1 = 0 := rfl
@[simp] theorem land_6_2 : (6 : ℕ) &&& 2 = 2 := rfl
@[simp] theorem land_6_8 : (6 : ℕ) &&& 8 = 0 := rfl
@[simp] theorem land_6_4 : (6 : ℕ) &&& 4 = 4 := rfl
@[simp] theorem land_8_1 : (8 : ℕ) &&& 1 = 0 := rfl
@[simp] theorem land_8_2 : (8 : ℕ) &&& 2 = 0 := rfl
@[simp] theorem land_8_8 : (8 : ℕ) &&& 8 = 8 := rfl
@[simp] theorem land_8_4 : (8 : ℕ) &&& 4 = 0 := rfl
@[simp] theorem land_9_1 : (9 : ℕ) &&& 1 = 1 := rfl
@[simp] theorem land_9_2 : (9 : ℕ) &&& 2 = 0 := rfl
@[simp] theorem land_9_8 : (9 : ℕ) &&& 8 = 8 := rfl
@[simp] theorem land_9_4 : (9 : ℕ) &&& 4 = 0 := rfl
@[simp] theorem land_10_1 : (10 : ℕ) &&& 1 = 0 := rfl
@[simp] theorem land_10_2 : (10 : ℕ) &&& 2 = 2 := rfl
@[simp] theorem land_10_8 : (10 : ℕ) &&& 8 = 8 := rfl
@[simp] theorem land_10_4 : (10 : ℕ) &&& 4 = 0 := rfl

/-! ### Evaluation of one clip pass under outcode hypotheses -/

theorem cbCore_L {l r t b x1 y1 x2 y2 : ℤ} (hxl : x1 < l) (hxr : ¬x1 > r)
    (hyt : ¬y1 < t) (hyb : ¬y1 > b) (hx2 : l ≤ x2) :
    ∃ y', cbCore l r t b x1 y1 x2 y2 = (l, y', x2, y2) ∧
      min y1 y2 ≤ y' ∧ y' ≤ max y1 y2 := by
  have hc : epc l r t b x1 y1 = 1 := by
    unfold epc
    simp [hxl, hxr, hyt, hyb]
  have hne : x1 ≠ x2 := by omega
  have hk := tdiv_mul_hull (l - x1) (x2 - x1) (y2 - y1) (by omega) (by omega)
  refine ⟨y1 + ((l - x1) * (y2 - y1)).tdiv (x2 - x1), ?_, by omega, by omega⟩
  simp [cbCore, hc, hne]

theorem cbCore_R {l r t b x1 y1 x2 y2 : ℤ} (hxl : ¬x1 < l) (hxr : x1 > r)
    (hyt : ¬y1 < t) (hyb : ¬y1 > b) (hx2 : x2 ≤ r) :
    ∃ y', cbCore l r t b x1 y1 x2 y2 = (r, y', x2, y2) ∧
      min y1 y2 ≤ y' ∧ y' ≤ max y1 y2 := by
  have hc : epc l r t b x1 y1 = 2 := by
    unfold epc
    simp [hxl, hxr, hyt, hyb]
  have hne : x1 ≠ x2 := by omega
  have hk := tdiv_mul_hull_neg (r - x1) (x2 - x1) (y2 - y1) (by omega)
    (by omega)
  refine ⟨y1 + ((r - x1) * (y2 - y1)).tdiv (x2 - x1), ?_, by omega, by omega⟩
  simp [cbCore, hc, hne]

theorem cbCore_B {l r t b x1 y1 x2 y2 : ℤ} (hxl : ¬x1 < l) (hxr : ¬x1 > r)
    (hyb : y1 > b) (htb : t ≤ b) (hy2 : y2 ≤ b) :
    ∃ x', cbCore l r t b x1 y1 x2 y2 = (x', b, x2, y2) ∧
      min x1 x2 ≤ x' ∧ x' ≤ max x1 x2 := by
  have hyt : ¬y1 < t := by omega
  have hc : epc l r t b x1 y1 = 8 := by
    unfold epc
    simp [hxl, hxr, hyt, hyb]
  by_cases hne : x1 = x2
  · refine ⟨x1, ?_, by omega, by omega⟩
    simp [cbCore, hc]
    simp [hne]
  · have hk := tdiv_mul_hull_neg (b - y1) (y2 - y1) (x2 - x1) (by omega)
      (by omega)
    refine ⟨x1 + ((b - y1) * (x2 - x1)).tdiv (y2 - y1), ?_, by omega,
      by omega⟩
    simp [cbCore, hc, hne]

theorem cbCore_T {l r t b x1 y1 x2 y2 : ℤ} (hxl : ¬x1 < l) (hxr : ¬x1 > r)
    (hyt : y1 < t) (htb : t ≤ b) (hy2 : t ≤ y2) :
    ∃ x', cbCore l r t b x1 y1 x2 y2 = (x', t, x2, y2) ∧
      min x1 x2 ≤ x' ∧ x' ≤ max x1 x2 := by
  have hyb : ¬y1 > b := by omega
  have hc : epc l r t b x1 y1 = 4 := by
    unfold epc
    simp [hxl, hxr, hyt, hyb]
  by_cases hne : x1 = x2
  · refine ⟨x1, ?_, by omega, by omega⟩
    simp [cbCore, hc]
    simp [hne]
  · have hk := tdiv_mul_hull (t - y1) (y2 - y1) (x2 - x1) (by omega)
      (by omega)
    refine ⟨x1 + ((t - y1) * (x2 - x1)).tdiv (y2 - y1), ?_, by omega,
      by omega⟩
    simp [cbCore, hc, hne]

/-- When the bottom bit is set, the pass ends with `y = b` (whatever the
left/right bits did first). -/
theorem cbCore_Bfinal {l r t b x1 y1 x2 y2 : ℤ} (hlr : l ≤ r) (htb : t ≤ b)
    (hyb : y1 > b) :
    ∃ x', cbCore l r t b x1 y1 x2 y2 = (x', b, x2, y2) := by
  have hyt : ¬y1 < t := by omega
  by_cases hxl : x1 < l
  · have hxr : ¬x1 > r := by omega
    have hc : epc l r t b x1 y1 = 9 := by
      unfold epc
      simp [hxl, hxr, hyt, hyb]
    have h2 : (cbCore l r t b x1 y1 x2 y2).2 = (b, x2, y2) := by
      simp [cbCore, hc]
    exact ⟨(cbCore l r t b x1 y1 x2 y2).1, by rw [← h2]⟩
  · by_cases hxr : x1 > r
    · have hc : epc l r t b x1 y1 = 10 := by
        unfold epc
        simp [hxl, hxr, hyt, hyb]
      have h2 : (cbCore l r t b x1 y1 x2 y2).2 = (b, x2, y2) := by
        simp [cbCore, hc]
      exact ⟨(cbCore l r t b x1 y1 x2 y2).1, by rw [← h2]⟩
    · have hc : epc l r t b x1 y1 = 8 := by
        unfold epc
        simp [hxl, hxr, hyt, hyb]
      have h2 : (cbCore l r t b x1 y1 x2 y2).2 = (b, x2, y2) := by
        simp [cbCore, hc]
      exact ⟨(cbCore l r t b x1 y1 x2 y2).1, by rw [← h2]⟩

/-- Helper lemmas extracting comparisons from outcode facts. -/
theorem epc_land_facts {l r t b x1 y1 x2 y2 : ℤ}
    (h : epc l r t b x1 y1 &&& epc l r t b x2 y2 = 0) :
    ¬(x1 < l ∧ x2 < l) ∧ ¬(y1 < t ∧ y2 < t) ∧
    ¬(x1 > r ∧ x2 > r) ∧ ¬(y1 > b ∧ y2 > b) :=
  (epc_land_zero_iff l r t b x1 y1 x2 y2).mp h

theorem epc_land_ne {l r t b x1 y1 x2 y2 : ℤ}
    (h : (x1 < l ∧ x2 < l) ∨ (y1 < t ∧ y2 < t) ∨ (x1 > r ∧ x2 > r) ∨
      (y1 > b ∧ y2 > b)) :
    epc l r t b x1 y1 &&& epc l r t b x2 y2 ≠ 0 := by
  intro hz
  have hf := (epc_land_zero_iff l r t b x1 y1 x2 y2).mp hz
  tauto

theorem epc_ne_zero_x {l r t b x1 y1 : ℤ} (hc1 : epc l r t b x1 y1 ≠ 0)
    (h1 : t ≤ y1) (h2 : y1 ≤ b) : x1 < l ∨ r < x1 := by
  by_contra hcon
  push_neg at hcon
  exact hc1 ((epc_zero_iff l r t b x1 y1).mpr
    ⟨hcon.1, hcon.2, h1, h2⟩)

theorem epc_ne_zero_y {l r t b x1 y1 : ℤ} (hc1 : epc l r t b x1 y1 ≠ 0)
    (h1 : l ≤ x1) (h2 : x1 ≤ r) : y1 < t ∨ b < y1 := by
  by_contra hcon
  push_neg at hcon
  exact hc1 ((epc_zero_iff l r t b x1 y1).mpr
    ⟨h1, h2, hcon.1, hcon.2⟩)

/-- When the top bit is set, the pass ends with `y = t`. -/
theorem cbCore_Tfinal {l r t b x1 y1 x2 y2 : ℤ} (hlr : l ≤ r) (htb : t ≤ b)
    (hyt : y1 < t) :
    ∃ x', cbCore l r t b x1 y1 x2 y2 = (x', t, x2, y2) := by
  have hyb : ¬y1 > b := by omega
  by_cases hxl : x1 < l
  · have hxr : ¬x1 > r := by omega
    have hc : epc l r t b x1 y1 = 5 := by
      unfold epc
      simp [hxl, hxr, hyt, hyb]
    have h2 : (cbCore l r t b x1 y1 x2 y2).2 = (t, x2, y2) := by
      simp [cbCore, hc]
    exact ⟨(cbCore l r t b x1 y1 x2 y2).1, by rw [← h2]⟩
  · by_cases hxr : x1 > r
    · have hc : epc l r t b x1 y1 = 6 := by
        unfold epc
        simp [hxl, hxr, hyt, hyb]
      have h2 : (cbCore l r t b x1 y1 x2 y2).2 = (t, x2, y2) := by
        simp [cbCore, hc]
      exact ⟨(cbCore l r t b x1 y1 x2 y2).1, by rw [← h2]⟩
    · have hc : epc l r t b x1 y1 = 4 := by
        unfold epc
        simp [hxl, hxr, hyt, hyb]
      have h2 : (cbCore l r t b x1 y1 x2 y2).2 = (t, x2, y2) := by
        simp [cbCore, hc]
      exact ⟨(cbCore l r t b x1 y1 x2 y2).1, by rw [← h2]⟩

/-! ### Termination of the clip loop

The loop state is analysed pass by pass.  Each clip pass pins one
coordinate of the clipped endpoint exactly onto a boundary while the other
coordinate stays within the hull of the segment's coordinates, so after at
most six passes the loop has accepted or rejected. -/

/-- Two passes suffice when the second endpoint is inside and the first
endpoint's `y` is within the vertical band. -/
theorem clipIn2y {l r t b : ℤ} (hlr : l ≤ r) (htb : t ≤ b)
    (x1 y1 x2 y2 : ℤ) (hi : epc l r t b x2 y2 = 0)
    (hy1 : t ≤ y1) (hy2 : y1 ≤ b) :
    clipLineF 2 l r t b x1 y1 x2 y2 ≠ .out := by
  have hbox := (epc_zero_iff l r t b x2 y2).mp hi
  by_cases hc1 : epc l r t b x1 y1 = 0
  · rw [clipF_acc 1 hc1 hi]; simp
  · have hsh : epc l r t b x1 y1 &&& epc l r t b x2 y2 = 0 := by
      rw [hi]; simp
    have hnb : ¬(epc l r t b x1 y1 = 0 ∧ epc l r t b x2 y2 = 0) :=
      fun h => hc1 h.1
    rw [clipF_step 1 hnb hsh, show clipBody l r t b x1 y1 x2 y2 =
      cbCore l r t b x1 y1 x2 y2 from if_neg hc1]
    rcases epc_ne_zero_x hc1 hy1 hy2 with hxl | hxr
    · obtain ⟨y', heq, hm1, hm2⟩ := @cbCore_L l r t b x1 y1 x2 y2 hxl
        (by omega) (by omega) (by omega) (by omega)
      rw [heq]
      rw [clipF_acc 0 ((epc_zero_iff l r t b l y').mpr
        ⟨le_refl l, hlr, by omega, by omega⟩) hi]
      simp
    · obtain ⟨y', heq, hm1, hm2⟩ := @cbCore_R l r t b x1 y1 x2 y2
        (by omega) hxr (by omega) (by omega) (by omega)
      rw [heq]
      rw [clipF_acc 0 ((epc_zero_iff l r t b r y').mpr
        ⟨hlr, le_refl r, by omega, by omega⟩) hi]
      simp

/-- Two passes suffice when the second endpoint is inside and the first
endpoint's `x` is within the horizontal band. -/
theorem clipIn2x {l r t b : ℤ} (hlr : l ≤ r) (htb : t ≤ b)
    (x1 y1 x2 y2 : ℤ) (hi : epc l r t b x2 y2 = 0)
    (hx1 : l ≤ x1) (hx2 : x1 ≤ r) :
    clipLineF 2 l r t b x1 y1 x2 y2 ≠ .out := by
  have hbox := (epc_zero_iff l r t b x2 y2).mp hi
  by_cases hc1 : epc l r t b x1 y1 = 0
  · rw [clipF_acc 1 hc1 hi]; simp
  · have hsh : epc l r t b x1 y1 &&& epc l r t b x2 y2 = 0 := by
      rw [hi]; simp
    have hnb : ¬(epc l r t b x1 y1 = 0 ∧ epc l r t b x2 y2 = 0) :=
      fun h => hc1 h.1
    rw [clipF_step 1 hnb hsh, show clipBody l r t b x1 y1 x2 y2 =
      cbCore l r t b x1 y1 x2 y2 from if_neg hc1]
    rcases epc_ne_zero_y hc1 hx1 hx2 with hyt | hyb
    · obtain ⟨x', heq, hm1, hm2⟩ := @cbCore_T l r t b x1 y1 x2 y2
        (by omega) (by omega) hyt htb (by omega)
      rw [heq]
      rw [clipF_acc 0 ((epc_zero_iff l r t b x' t).mpr
        ⟨by omega, by omega, le_refl t, htb⟩) hi]
      simp
    · obtain ⟨x', heq, hm1, hm2⟩ := @cbCore_B l r t b x1 y1 x2 y2
        (by omega) (by omega) (by omega) htb (by omega)
      rw [heq]
      rw [clipF_acc 0 ((epc_zero_iff l r t b x' b).mpr
        ⟨by omega, by omega, htb, le_refl b⟩) hi]
      simp

/-- Three passes suffice when the second endpoint is inside. -/
theorem clipIn3 {l r t b : ℤ} (hlr : l ≤ r) (htb : t ≤ b)
    (x1 y1 x2 y2 : ℤ) (hi : epc l r t b x2 y2 = 0) :
    clipLineF 3 l r t b x1 y1 x2 y2 ≠ .out := by
  have hbox := (epc_zero_iff l r t b x2 y2).mp hi
  by_cases hc1 : epc l r t b x1 y1 = 0
  · rw [clipF_acc 2 hc1 hi]; simp
  · have hsh : epc l r t b x1 y1 &&& epc l r t b x2 y2 = 0 := by
      rw [hi]; simp
    have hnb : ¬(epc l r t b x1 y1 = 0 ∧ epc l r t b x2 y2 = 0) :=
      fun h => hc1 h.1
    rw [clipF_step 2 hnb hsh, show clipBody l r t b x1 y1 x2 y2 =
      cbCore l r t b x1 y1 x2 y2 from if_neg hc1]
    by_cases hyb : y1 > b
    · obtain ⟨x', heq⟩ := @cbCore_Bfinal l r t b x1 y1 x2 y2 hlr htb hyb
      rw [heq]
      exact clipIn2y hlr htb x' b x2 y2 hi htb (le_refl b)
    · by_cases hyt : y1 < t
      · obtain ⟨x', heq⟩ := @cbCore_Tfinal l r t b x1 y1 x2 y2 hlr htb hyt
        rw [heq]
        exact clipIn2y hlr htb x' t x2 y2 hi (le_refl t) htb
      · rcases epc_ne_zero_x hc1 (by omega) (by omega) with hxl | hxr
        · obtain ⟨y', heq, hm1, hm2⟩ := @cbCore_L l r t b x1 y1 x2 y2 hxl
            (by omega) (by omega) (by omega) (by omega)
          rw [heq]
          exact clipIn2x hlr htb l y' x2 y2 hi (le_refl l) hlr
        · obtain ⟨y', heq, hm1, hm2⟩ := @cbCore_R l r t b x1 y1 x2 y2
            (by omega) hxr (by omega) (by omega) (by omega)
          rw [heq]
          exact clipIn2x hlr htb r y' x2 y2 hi hlr (le_refl r)

/-- Four passes suffice when the first endpoint is inside (the loop swaps
and then clips the second endpoint). -/
theorem clipFirstIn {l r t b : ℤ} (hlr : l ≤ r) (htb : t ≤ b)
    (x1 y1 x2 y2 : ℤ) (hc1 : epc l r t b x1 y1 = 0) :
    clipLineF 4 l r t b x1 y1 x2 y2 ≠ .out := by
  by_cases hc2 : epc l r t b x2 y2 = 0
  · rw [clipF_acc 3 hc1 hc2]; simp
  · have hsh : epc l r t b x1 y1 &&& epc l r t b x2 y2 = 0 := by
      rw [hc1]; simp
    have hnb : ¬(epc l r t b x1 y1 = 0 ∧ epc l r t b x2 y2 = 0) :=
      fun h => hc2 h.2
    rw [clipF_step 3 hnb hsh, show clipBody l r t b x1 y1 x2 y2 =
      cbCore l r t b x2 y2 x1 y1 from if_pos hc1]
    rw [show (cbCore l r t b x2 y2 x1 y1).2.2 = (x1, y1) from
      cbCore_snd l r t b x2 y2 x1 y1]
    exact clipIn3 hlr htb _ _ x1 y1 hc1

/-- Five passes suffice when the first endpoint's `y` is within the
vertical band. -/
theorem clipJ2y {l r t b : ℤ} (hlr : l ≤ r) (htb : t ≤ b)
    (x1 y1 x2 y2 : ℤ) (hy1 : t ≤ y1) (hy2 : y1 ≤ b) :
    clipLineF 5 l r t b x1 y1 x2 y2 ≠ .out := by
  by_cases hc1 : epc l r t b x1 y1 = 0
  · exact clipF_mono_ne (by omega) (clipFirstIn hlr htb x1 y1 x2 y2 hc1)
  · by_cases hsh : epc l r t b x1 y1 &&& epc l r t b x2 y2 = 0
    · have hnb : ¬(epc l r t b x1 y1 = 0 ∧ epc l r t b x2 y2 = 0) :=
        fun h => hc1 h.1
      obtain ⟨hf1, hf2, hf3, hf4⟩ := epc_land_facts hsh
      rw [clipF_step 4 hnb hsh, show clipBody l r t b x1 y1 x2 y2 =
        cbCore l r t b x1 y1 x2 y2 from if_neg hc1]
      rcases epc_ne_zero_x hc1 hy1 hy2 with hxl | hxr
      · obtain ⟨y', heq, hm1, hm2⟩ := @cbCore_L l r t b x1 y1 x2 y2 hxl
          (by omega) (by omega) (by omega) (by omega)
        rw [heq]
        by_cases hyb : y' > b
        · have hy2b : y2 > b := by
            rcases max_cases y1 y2 with ⟨he, _⟩ | ⟨he, _⟩ <;> omega
          rw [clipF_rej 3 (@epc_land_ne l r t b l y' x2 y2
            (Or.inr (Or.inr (Or.inr ⟨hyb, hy2b⟩))))]
          simp
        · by_cases hyt : y' < t
          · have hy2t : y2 < t := by
              rcases min_cases y1 y2 with ⟨he, _⟩ | ⟨he, _⟩ <;> omega
            rw [clipF_rej 3 (@epc_land_ne l r t b l y' x2 y2
              (Or.inr (Or.inl ⟨hyt, hy2t⟩)))]
            simp
          · exact clipFirstIn hlr htb l y' x2 y2
              ((epc_zero_iff l r t b l y').mpr
                ⟨le_refl l, hlr, by omega, by omega⟩)
      · obtain ⟨y', heq, hm1, hm2⟩ := @cbCore_R l r t b x1 y1 x2 y2
          (by omega) hxr (by omega) (by omega) (by omega)
        rw [heq]
        by_cases hyb : y' > b
        · have hy2b : y2 > b := by
            rcases max_cases y1 y2 with ⟨he, _⟩ | ⟨he, _⟩ <;> omega
          rw [clipF_rej 3 (@epc_land_ne l r t b r y' x2 y2
            (Or.inr (Or.inr (Or.inr ⟨hyb, hy2b⟩))))]
          simp
        · by_cases hyt : y' < t
          · have hy2t : y2 < t := by
              rcases min_cases y1 y2 with ⟨he, _⟩ | ⟨he, _⟩ <;> omega
            rw [clipF_rej 3 (@epc_land_ne l r t b r y' x2 y2
              (Or.inr (Or.inl ⟨hyt, hy2t⟩)))]
            simp
          · exact clipFirstIn hlr htb r y' x2 y2
              ((epc_zero_iff l r t b r y').mpr
                ⟨hlr, le_refl r, by omega, by omega⟩)
    · rw [clipF_rej 4 hsh]; simp

/-- Five passes suffice when the first endpoint's `x` is within the
horizontal band. -/
theorem clipJ2x {l r t b : ℤ} (hlr : l ≤ r) (htb : t ≤ b)
    (x1 y1 x2 y2 : ℤ) (hx1 : l ≤ x1) (hx2 : x1 ≤ r) :
    clipLineF 5 l r t b x1 y1 x2 y2 ≠ .out := by
  by_cases hc1 : epc l r t b x1 y1 = 0
  · exact clipF_mono_ne (by omega) (clipFirstIn hlr htb x1 y1 x2 y2 hc1)
  · by_cases hsh : epc l r t b x1 y1 &&& epc l r t b x2 y2 = 0
    · have hnb : ¬(epc l r t b x1 y1 = 0 ∧ epc l r t b x2 y2 = 0) :=
        fun h => hc1 h.1
      obtain ⟨hf1, hf2, hf3, hf4⟩ := epc_land_facts hsh
      rw [clipF_step 4 hnb hsh, show clipBody l r t b x1 y1 x2 y2 =
        cbCore l r t b x1 y1 x2 y2 from if_neg hc1]
      rcases epc_ne_zero_y hc1 hx1 hx2 with hyt | hyb
      · obtain ⟨x', heq, hm1, hm2⟩ := @cbCore_T l r t b x1 y1 x2 y2
          (by omega) (by omega) hyt htb (by omega)
        rw [heq]
        by_cases hxl : x' < l
        · have hx2l : x2 < l := by
            rcases min_cases x1 x2 with ⟨he, _⟩ | ⟨he, _⟩ <;> omega
          rw [clipF_rej 3 (@epc_land_ne l r t b x' t x2 y2
            (Or.inl ⟨hxl, hx2l⟩))]
          simp
        · by_cases hxr : x' > r
          · have hx2r : x2 > r := by
              rcases max_cases x1 x2 with ⟨he, _⟩ | ⟨he, _⟩ <;> omega
            rw [clipF_rej 3 (@epc_land_ne l r t b x' t x2 y2
              (Or.inr (Or.inr (Or.inl ⟨hxr, hx2r⟩))))]
            simp
          · exact clipFirstIn hlr htb x' t x2 y2
              ((epc_zero_iff l r t b x' t).mpr
                ⟨by omega, by omega, le_refl t, htb⟩)
      · obtain ⟨x', heq, hm1, hm2⟩ := @cbCore_B l r t b x1 y1 x2 y2
          (by omega) (by omega) hyb htb (by omega)
        rw [heq]
        by_cases hxl : x' < l
        · have hx2l : x2 < l := by
            rcases min_cases x1 x2 with ⟨he, _⟩ | ⟨he, _⟩ <;> omega
          rw [clipF_rej 3 (@epc_land_ne l r t b x' b x2 y2
            (Or.inl ⟨hxl, hx2l⟩))]
          simp
        · by_cases hxr : x' > r
          · have hx2r : x2 > r := by
              rcases max_cases x1 x2 with ⟨he, _⟩ | ⟨he, _⟩ <;> omega
            rw [clipF_rej 3 (@epc_land_ne l r t b x' b x2 y2
              (Or.inr (Or.inr (Or.inl ⟨hxr, hx2r⟩))))]
            simp
          · exact clipFirstIn hlr htb x' b x2 y2
              ((epc_zero_iff l r t b x' b).mpr
                ⟨by omega, by omega, htb, le_refl b⟩)
    · rw [clipF_rej 4 hsh]; simp

/-- Six passes suffice from any state. -/
theorem clipMain {l r t b : ℤ} (hlr : l ≤ r) (htb : t ≤ b)
    (x1 y1 x2 y2 : ℤ) :
    clipLineF 6 l r t b x1 y1 x2 y2 ≠ .out := by
  by_cases hc1 : epc l r t b x1 y1 = 0
  · exact clipF_mono_ne (by omega) (clipFirstIn hlr htb x1 y1 x2 y2 hc1)
  · by_cases hsh : epc l r t b x1 y1 &&& epc l r t b x2 y2 = 0
    · have hnb : ¬(epc l r t b x1 y1 = 0 ∧ epc l r t b x2 y2 = 0) :=
        fun h => hc1 h.1
      obtain ⟨hf1, hf2, hf3, hf4⟩ := epc_land_facts hsh
      rw [clipF_step 5 hnb hsh, show clipBody l r t b x1 y1 x2 y2 =
        cbCore l r t b x1 y1 x2 y2 from if_neg hc1]
      by_cases hyb : y1 > b
      · obtain ⟨x', heq⟩ := @cbCore_Bfinal l r t b x1 y1 x2 y2 hlr htb hyb
        rw [heq]
        exact clipJ2y hlr htb x' b x2 y2 htb (le_refl b)
      · by_cases hyt : y1 < t
        · obtain ⟨x', heq⟩ := @cbCore_Tfinal l r t b x1 y1 x2 y2 hlr htb hyt
          rw [heq]
          exact clipJ2y hlr htb x' t x2 y2 (le_refl t) htb
        · rcases epc_ne_zero_x hc1 (by omega) (by omega) with hxl | hxr
          · obtain ⟨y', heq, hm1, hm2⟩ := @cbCore_L l r t b x1 y1 x2 y2 hxl
              (by omega) (by omega) (by omega) (by omega)
            rw [heq]
            exact clipJ2x hlr htb l y' x2 y2 (le_refl l) hlr
          · obtain ⟨y', heq, hm1, hm2⟩ := @cbCore_R l r t b x1 y1 x2 y2
              (by omega) hxr (by omega) (by omega) (by omega)
            rw [heq]
            exact clipJ2x hlr htb r y' x2 y2 hlr (le_refl r)
    · rw [clipF_rej 5 hsh]; simp

/-- C4: the Cohen-Sutherland clipping loop of `_clip_line` terminates for
every input segment and every clip box (inclusive box `left ≤ right`,
`top ≤ bottom`): the embedded loop, given eight passes of fuel, never
exhausts it — each clip step pins an out-of-bounds endpoint onto a
boundary and the loop accepts or rejects within at most six passes. -/
theorem claim_C4 (l r t b x1 y1 x2 y2 : ℤ) (hlr : l ≤ r) (htb : t ≤ b) :
    clipLineF 8 l r t b x1 y1 x2 y2 ≠ .out :=
  clipF_mono_ne (by omega) (clipMain hlr htb x1 y1 x2 y2)

/-- Witness for C4 at a concrete segment and clip box. -/
theorem claim_C4_witness :
    (0 : ℤ) ≤ 10 ∧ (0 : ℤ) ≤ 8 ∧
      clipLineF 8 0 10 0 8 (-5) (-7) 20 23 ≠ .out :=
  ⟨by decide, by decide,
    claim_C4 0 10 0 8 (-5) (-7) 20 23 (by decide) (by decide)⟩

/-! ### Behaviour of `_clip_line` on the three specified segment classes -/

theorem cval_eq_1 (a b c d : Bool) :
    cval a b c d = 1 ↔ a = true ∧ b = false ∧ c = false ∧ d = false := by
  revert a b c d; decide

theorem cval_eq_2 (a b c d : Bool) :
    cval a b c d = 2 ↔ a = false ∧ b = false ∧ c = true ∧ d = false := by
  revert a b c d; decide

theorem cval_eq_4 (a b c d : Bool) :
    cval a b c d = 4 ↔ a = false ∧ b = true ∧ c = false ∧ d = false := by
  revert a b c d; decide

theorem cval_eq_8 (a b c d : Bool) :
    cval a b c d = 8 ↔ a = false ∧ b = false ∧ c = false ∧ d = true := by
  revert a b c d; decide

theorem epc_eq_1 {l r t b x y : ℤ} (h : epc l r t b x y = 1) :
    x < l ∧ ¬x > r ∧ ¬y < t ∧ ¬y > b := by
  rw [epc_eq, cval_eq_1] at h
  simp only [decide_eq_true_eq, decide_eq_false_iff_not] at h
  tauto

theorem epc_eq_2 {l r t b x y : ℤ} (h : epc l r t b x y = 2) :
    ¬x < l ∧ x > r ∧ ¬y < t ∧ ¬y > b := by
  rw [epc_eq, cval_eq_2] at h
  simp only [decide_eq_true_eq, decide_eq_false_iff_not] at h
  tauto

theorem epc_eq_4 {l r t b x y : ℤ} (h : epc l r t b x y = 4) :
    ¬x < l ∧ ¬x > r ∧ y < t ∧ ¬y > b := by
  rw [epc_eq, cval_eq_4] at h
  simp only [decide_eq_true_eq, decide_eq_false_iff_not] at h
  tauto

theorem epc_eq_8 {l r t b x y : ℤ} (h : epc l r t b x y = 8) :
    ¬x < l ∧ ¬x > r ∧ ¬y < t ∧ y > b := by
  rw [epc_eq, cval_eq_8] at h
  simp only [decide_eq_true_eq, decide_eq_false_iff_not] at h
  tauto

/-- Number of coordinate slots that differ between two segments, used to
state the original claim's "exactly one endpoint coordinate changes". -/
def changedCount (p q : ℤ × ℤ × ℤ × ℤ) : ℕ :=
  (if p.1 ≠ q.1 then 1 else 0) + (if p.2.1 ≠ q.2.1 then 1 else 0) +
  (if p.2.2.1 ≠ q.2.2.1 then 1 else 0) + (if p.2.2.2 ≠ q.2.2.2 then 1 else 0)

theorem clipOne_L {l r t b x1 y1 x2 y2 : ℤ} (hlr : l ≤ r) (htb : t ≤ b)
    (h1 : epc l r t b x1 y1 = 1) (h2 : epc l r t b x2 y2 = 0) :
    ∃ y', t ≤ y' ∧ y' ≤ b ∧
      clipLineF 8 l r t b x1 y1 x2 y2 = .acc l y' x2 y2 := by
  obtain ⟨ha, hb, hc, hd⟩ := epc_eq_1 h1
  have hbox := (epc_zero_iff l r t b x2 y2).mp h2
  have hnb : ¬(epc l r t b x1 y1 = 0 ∧ epc l r t b x2 y2 = 0) := by
    rw [h1]; simp
  have hsh : epc l r t b x1 y1 &&& epc l r t b x2 y2 = 0 := by
    rw [h2]; simp
  obtain ⟨y', heq, hm1, hm2⟩ := @cbCore_L l r t b x1 y1 x2 y2 ha hb hc hd
    (by omega)
  refine ⟨y', by omega, by omega, ?_⟩
  rw [clipF_step 7 hnb hsh, show clipBody l r t b x1 y1 x2 y2 =
    cbCore l r t b x1 y1 x2 y2 from if_neg (by rw [h1]; simp), heq]
  exact clipF_acc 6 ((epc_zero_iff l r t b l y').mpr
    ⟨le_refl l, hlr, by omega, by omega⟩) h2

theorem clipOne_R {l r t b x1 y1 x2 y2 : ℤ} (hlr : l ≤ r) (htb : t ≤ b)
    (h1 : epc l r t b x1 y1 = 2) (h2 : epc l r t b x2 y2 = 0) :
    ∃ y', t ≤ y' ∧ y' ≤ b ∧
      clipLineF 8 l r t b x1 y1 x2 y2 = .acc r y' x2 y2 := by
  obtain ⟨ha, hb, hc, hd⟩ := epc_eq_2 h1
  have hbox := (epc_zero_iff l r t b x2 y2).mp h2
  have hnb : ¬(epc l r t b x1 y1 = 0 ∧ epc l r t b x2 y2 = 0) := by
    rw [h1]; simp
  have hsh : epc l r t b x1 y1 &&& epc l r t b x2 y2 = 0 := by
    rw [h2]; simp
  obtain ⟨y', heq, hm1, hm2⟩ := @cbCore_R l r t b x1 y1 x2 y2 ha hb hc hd
    (by omega)
  refine ⟨y', by omega, by omega, ?_⟩
  rw [clipF_step 7 hnb hsh, show clipBody l r t b x1 y1 x2 y2 =
    cbCore l r t b x1 y1 x2 y2 from if_neg (by rw [h1]; simp), heq]
  exact clipF_acc 6 ((epc_zero_iff l r t b r y').mpr
    ⟨hlr, le_refl r, by omega, by omega⟩) h2

theorem clipOne_T {l r t b x1 y1 x2 y2 : ℤ} (hlr : l ≤ r) (htb : t ≤ b)
    (h1 : epc l r t b x1 y1 = 4) (h2 : epc l r t b x2 y2 = 0) :
    ∃ x', l ≤ x' ∧ x' ≤ r ∧
      clipLineF 8 l r t b x1 y1 x2 y2 = .acc x' t x2 y2 := by
  obtain ⟨ha, hb, hc, hd⟩ := epc_eq_4 h1
  have hbox := (epc_zero_iff l r t b x2 y2).mp h2
  have hnb : ¬(epc l r t b x1 y1 = 0 ∧ epc l r t b x2 y2 = 0) := by
    rw [h1]; simp
  have hsh : epc l r t b x1 y1 &&& epc l r t b x2 y2 = 0 := by
    rw [h2]; simp
  obtain ⟨x', heq, hm1, hm2⟩ := @cbCore_T l r t b x1 y1 x2 y2 ha hb hc htb
    (by omega)
  refine ⟨x', by omega, by omega, ?_⟩
  rw [clipF_step 7 hnb hsh, show clipBody l r t b x1 y1 x2 y2 =
    cbCore l r t b x1 y1 x2 y2 from if_neg (by rw [h1]; simp), heq]
  exact clipF_acc 6 ((epc_zero_iff l r t b x' t).mpr
    ⟨by omega, by omega, le_refl t, htb⟩) h2

theorem clipOne_B {l r t b x1 y1 x2 y2 : ℤ} (hlr : l ≤ r) (htb : t ≤ b)
    (h1 : epc l r t b x1 y1 = 8) (h2 : epc l r t b x2 y2 = 0) :
    ∃ x', l ≤ x' ∧ x' ≤ r ∧
      clipLineF 8 l r t b x1 y1 x2 y2 = .acc x' b x2 y2 := by
  obtain ⟨ha, hb, hc, hd⟩ := epc_eq_8 h1
  have hbox := (epc_zero_iff l r t b x2 y2).mp h2
  have hnb : ¬(epc l r t b x1 y1 = 0 ∧ epc l r t b x2 y2 = 0) := by
    rw [h1]; simp
  have hsh : epc l r t b x1 y1 &&& epc l r t b x2 y2 = 0 := by
    rw [h2]; simp
  obtain ⟨x', heq, hm1, hm2⟩ := @cbCore_B l r t b x1 y1 x2 y2 ha hb hd htb
    (by omega)
  refine ⟨x', by omega, by omega, ?_⟩
  rw [clipF_step 7 hnb hsh, show clipBody l r t b x1 y1 x2 y2 =
    cbCore l r t b x1 y1 x2 y2 from if_neg (by rw [h1]; simp), heq]
  exact clipF_acc 6 ((epc_zero_iff l r t b x' b).mpr
    ⟨by omega, by omega, htb, le_refl b⟩) h2

/-- Swapped-order variant: first endpoint inside, second endpoint out on a
single boundary; the loop swaps the endpoints and clips the (now first)
out endpoint, so the accepted tuple comes back in swapped order. -/
theorem clipSwap_step {l r t b x1 y1 x2 y2 : ℤ}
    (h1 : epc l r t b x1 y1 = 0) (h2 : epc l r t b x2 y2 ≠ 0) :
    clipLineF 8 l r t b x1 y1 x2 y2 =
      clipLineF 8 l r t b x2 y2 x1 y1 := by
  have hnb : ¬(epc l r t b x1 y1 = 0 ∧ epc l r t b x2 y2 = 0) :=
    fun h => h2 h.2
  have hsh : epc l r t b x1 y1 &&& epc l r t b x2 y2 = 0 := by
    rw [h1]; simp
  have hsh2 : epc l r t b x2 y2 &&& epc l r t b x1 y1 = 0 := by
    rw [h1]; simp
  rw [clipF_step 7 hnb hsh, show clipBody l r t b x1 y1 x2 y2 =
    cbCore l r t b x2 y2 x1 y1 from if_pos h1]
  rw [clipF_step 7 (fun h => h2 h.1) hsh2,
    show clipBody l r t b x2 y2 x1 y1 =
      cbCore l r t b x2 y2 x1 y1 from if_neg h2]

/-- C3 (amended): over an inclusive clip box, `_clip_line` returns a fully
inside segment unchanged; returns the rejection sentinel when the two
outcodes share a set bit; and for a segment with one endpoint inside and
the other crossing exactly one boundary it alters only the outside
endpoint (though when the inside endpoint comes first the two endpoints
are returned in swapped order): the clipped endpoint's coordinate on the
crossed axis is set exactly to that boundary while its other coordinate
moves along the segment (truncated) and stays within the box, and the
inside endpoint is returned unchanged. -/
theorem claim_C3 (l r t b x1 y1 x2 y2 : ℤ) (hlr : l ≤ r) (htb : t ≤ b) :
    (epc l r t b x1 y1 = 0 → epc l r t b x2 y2 = 0 →
      clipLine l r t b x1 y1 x2 y2 = .acc x1 y1 x2 y2) ∧
    (epc l r t b x1 y1 &&& epc l r t b x2 y2 ≠ 0 →
      clipLine l r t b x1 y1 x2 y2 = .rej) ∧
    (epc l r t b x2 y2 = 0 →
      (epc l r t b x1 y1 = 1 → ∃ y', t ≤ y' ∧ y' ≤ b ∧
        clipLine l r t b x1 y1 x2 y2 = .acc l y' x2 y2) ∧
      (epc l r t b x1 y1 = 2 → ∃ y', t ≤ y' ∧ y' ≤ b ∧
        clipLine l r t b x1 y1 x2 y2 = .acc r y' x2 y2) ∧
      (epc l r t b x1 y1 = 4 → ∃ x', l ≤ x' ∧ x' ≤ r ∧
        clipLine l r t b x1 y1 x2 y2 = .acc x' t x2 y2) ∧
      (epc l r t b x1 y1 = 8 → ∃ x', l ≤ x' ∧ x' ≤ r ∧
        clipLine l r t b x1 y1 x2 y2 = .acc x' b x2 y2)) ∧
    (epc l r t b x1 y1 = 0 →
      (epc l r t b x2 y2 = 1 → ∃ y', t ≤ y' ∧ y' ≤ b ∧
        clipLine l r t b x1 y1 x2 y2 = .acc l y' x1 y1) ∧
      (epc l r t b x2 y2 = 2 → ∃ y', t ≤ y' ∧ y' ≤ b ∧
        clipLine l r t b x1 y1 x2 y2 = .acc r y' x1 y1) ∧
      (epc l r t b x2 y2 = 4 → ∃ x', l ≤ x' ∧ x' ≤ r ∧
        clipLine l r t b x1 y1 x2 y2 = .acc x' t x1 y1) ∧
      (epc l r t b x2 y2 = 8 → ∃ x', l ≤ x' ∧ x' ≤ r ∧
        clipLine l r t b x1 y1 x2 y2 = .acc x' b x1 y1)) := by
  refine ⟨fun h1 h2 => clipF_acc 7 h1 h2, fun h => clipF_rej 7 h,
    fun h2 => ⟨fun hb => clipOne_L hlr htb hb h2,
      fun hb => clipOne_R hlr htb hb h2,
      fun hb => clipOne_T hlr htb hb h2,
      fun hb => clipOne_B hlr htb hb h2⟩,
    fun h1 => ⟨?_, ?_, ?_, ?_⟩⟩
  · intro hb
    obtain ⟨y', ht', hb', heq⟩ :=
      @clipOne_L l r t b x2 y2 x1 y1 hlr htb hb h1
    refine ⟨y', ht', hb', ?_⟩
    show clipLineF 8 l r t b x1 y1 x2 y2 = _
    rw [clipSwap_step h1 (by rw [hb]; simp), heq]
  · intro hb
    obtain ⟨y', ht', hb', heq⟩ :=
      @clipOne_R l r t b x2 y2 x1 y1 hlr htb hb h1
    refine ⟨y', ht', hb', ?_⟩
    show clipLineF 8 l r t b x1 y1 x2 y2 = _
    rw [clipSwap_step h1 (by rw [hb]; simp), heq]
  · intro hb
    obtain ⟨x', hl', hr', heq⟩ :=
      @clipOne_T l r t b x2 y2 x1 y1 hlr htb hb h1
    refine ⟨x', hl', hr', ?_⟩
    show clipLineF 8 l r t b x1 y1 x2 y2 = _
    rw [clipSwap_step h1 (by rw [hb]; simp), heq]
  · intro hb
    obtain ⟨x', hl', hr', heq⟩ :=
      @clipOne_B l r t b x2 y2 x1 y1 hlr htb hb h1
    refine ⟨x', hl', hr', ?_⟩
    show clipLineF 8 l r t b x1 y1 x2 y2 = _
    rw [clipSwap_step h1 (by rw [hb]; simp), heq]

/-- Witness for the amended C3: a fully inside segment is returned
unchanged, and a segment crossing only the left boundary comes back with
the clipped endpoint exactly on that boundary. -/
theorem claim_C3_witness :
    clipLine 0 10 0 10 1 1 9 9 = .acc 1 1 9 9 ∧
    clipLine 0 10 0 10 (-3) 1 5 5 = .acc 0 2 5 5 := by
  constructor
  · exact (claim_C3 0 10 0 10 1 1 9 9 (by decide) (by decide)).1
      (by decide) (by decide)
  · obtain ⟨y', _, _, heq⟩ :=
      ((claim_C3 0 10 0 10 (-3) 1 5 5 (by decide) (by decide)).2.2.1
        (by decide)).1 (by decide)
    rw [heq]
    have : y' = 2 := by
      have h2 : clipLine 0 10 0 10 (-3) 1 5 5 = .acc 0 2 5 5 := by decide
      rw [h2] at heq
      exact (ClipRes.acc.injEq _ _ _ _ _ _ _ _).mp heq.symm |>.2.1
    rw [this]

/-- Counterexample to C3 as stated: for the segment `(5,5)-(-3,1)` against
the box `[0,10] × [0,10]` (first endpoint inside, second crossing only the
left boundary), the clipper returns `acc 0 2 5 5`: the endpoints come back
in swapped order and the clipped endpoint `(-3,1) ↦ (0,2)` changes in BOTH
coordinates, so "exactly one endpoint coordinate changes" fails (all four
coordinate slots of the returned tuple differ from the input tuple). -/
theorem claim_C3_counterexample :
    clipLine 0 10 0 10 5 5 (-3) 1 = .acc 0 2 5 5 ∧
    changedCount (5, 5, -3, 1) (0, 2, 5, 5) = 4 ∧
    ((0 : ℤ) ≠ -3 ∧ (2 : ℤ) ≠ 1) := by
  refine ⟨by decide, by decide, by decide, by decide⟩

/-! ### Write events and buffer semantics

A drawing call performs, in order, a sequence of write events: `fill`
(a call to the external `SDL_FillRect`, which clips internally to the
surface's clip rectangle and bounds) and `poke` (a raw write
`pixels[i] = color` into the flat pixel buffer, used only by the
thin-line fast path).  The final buffer is the fold of the events over
the initial buffer. -/

inductive Ev where
  | fill (r : Rct) (c : ℤ)
  | poke (i : ℤ) (c : ℤ)
  deriving DecidableEq, Repr

/-- Membership of the pixel `(x, y)` in a rectangle. -/
def inRectB (r : Rct) (x y : ℤ) : Bool :=
  decide (r.x ≤ x ∧ x < r.x + r.w ∧ r.y ≤ y ∧ y < r.y + r.h)

/-- Modelled from the spec: `SDL_FillRect` (external collaborator) writes
the pixel `(x, y)` exactly when it is inside the requested rectangle, the
surface's pixel bounds and the surface's clip rectangle (spec section 6:
`fill_rect` "clips internally to clip_rect and writes"). -/
def fillCovers (s : Surface) (r : Rct) (x y : ℤ) : Bool :=
  inRectB r x y && inRectB ⟨0, 0, s.w, s.h⟩ x y && inRectB s.clip x y

/-- Effect of one write event on the flat buffer.  A flat index `i`
addresses the pixel `(i % pitch, i / pitch)`. -/
def applyEv (s : Surface) (e : Ev) (bf : ℤ → ℤ) : ℤ → ℤ :=
  match e with
  | .fill r c => fun i =>
      if fillCovers s r (i % s.pitch) (i / s.pitch) then c else bf i
  | .poke j c => fun i => if i = j then c else bf i

/-- Effect of a list of write events, applied in order. -/
def applyEvs (s : Surface) : List Ev → (ℤ → ℤ) → (ℤ → ℤ)
  | [], bf => bf
  | e :: es, bf => applyEvs s es (applyEv s e bf)

/-- Value written to index `i` by one event, if any. -/
def evWrite (s : Surface) (e : Ev) (i : ℤ) : Option ℤ :=
  match e with
  | .fill r c =>
      if fillCovers s r (i % s.pitch) (i / s.pitch) then some c else none
  | .poke j c => if i = j then some c else none

/-- Value of the last write to index `i` in an event list, if any. -/
def lastWrite (s : Surface) : List Ev → ℤ → Option ℤ
  | [], _ => none
  | e :: es, i =>
    match lastWrite s es i with
    | some c => some c
    | none => evWrite s e i

theorem applyEvs_eq_lastWrite (s : Surface) (es : List Ev) :
    ∀ (bf : ℤ → ℤ) (i : ℤ),
      applyEvs s es bf i = (lastWrite s es i).getD (bf i) := by
  induction es with
  | nil => intro bf i; rfl
  | cons e es ih =>
    intro bf i
    show applyEvs s es (applyEv s e bf) i = _
    rw [ih]
    cases h : lastWrite s es i with
    | some c => simp [lastWrite, h]
    | none =>
      simp only [lastWrite, h, Option.getD]
      cases e with
      | fill r c =>
        by_cases hc : fillCovers s r (i % s.pitch) (i / s.pitch) = true <;>
          simp [applyEv, evWrite, hc]
      | poke j c =>
        by_cases hc : i = j <;> simp [applyEv, evWrite, hc]

/-- Applying the same event list twice gives the same buffer as applying
it once: every event writes an absolute value, never reading the buffer. -/
theorem applyEvs_idem (s : Surface) (es : List Ev) (bf : ℤ → ℤ) :
    applyEvs s es (applyEvs s es bf) = applyEvs s es bf := by
  funext i
  rw [applyEvs_eq_lastWrite, applyEvs_eq_lastWrite]
  cases h : lastWrite s es i with
  | some c => simp
  | none => simp [applyEvs_eq_lastWrite, h]

/-! ### The line rasterizer (`line`) -/

/-- Embedding of the Bresenham loop of the thin-line path:
`while x < dx: pixels[pixel] = color; y += dy;`
`if y > dx: y -= dx; pixel += incy;`
`x += 1; pixel += incx`.
The fuel is the number of remaining iterations, `dx - x`. -/
def bresLoop (dxM dy incx incy c : ℤ) : ℕ → ℤ → ℤ → List Ev
  | 0, _, _ => []
  | n + 1, y, pixel =>
    .poke pixel c ::
      (if dxM < y + dy then
        bresLoop dxM dy incx incy c n (y + dy - dxM) (pixel + incy + incx)
      else bresLoop dxM dy incx incy c n (y + dy) (pixel + incx))

/-- Raw-write events of the thin-line path after clipping: sign setup,
axis swap when the line is y-dominant, then the Bresenham walk. -/
def thinEvents (s : Surface) (c x1 y1 x2 y2 : ℤ) : List Ev :=
  let dx0 := x2 - x1
  let dy0 := y2 - y1
  let signx : ℤ := if dx0 < 0 then -1 else 1
  let signy : ℤ := if dy0 < 0 then -1 else 1
  let dx := signx * dx0 + 1
  let dy := signy * dy0 + 1
  let pixel := y1 * s.pitch + x1
  let incx := signx
  let incy := signy * s.pitch
  if dx < dy then bresLoop dy dx incy incx c dy.toNat 0 pixel
  else bresLoop dx dy incx incy c dx.toNat 0 pixel

/-- Thin-line path of `line` (`width == 1`, not axis aligned): a 3-byte
pixel format raises, otherwise the segment is clipped against the
surface's clip rectangle (inclusive box) and, if accepted, walked
pixel by pixel. -/
def lineThin (s : Surface) (c : ℤ) (p1 p2 : ℤ × ℤ) :
    List Ev × Except DrawErr (Option Rct) :=
  if s.bpp = 3 then ([], .error .unsupportedFormat)
  else
    match clipLine s.clip.x (s.clip.x + s.clip.w - 1) s.clip.y
        (s.clip.y + s.clip.h - 1) p1.1 p1.2 p2.1 p2.2 with
    | .acc a b c2 d => (thinEvents s c a b c2 d, .ok none)
    | _ => ([], .ok none)

/-- Vertical fast path: fill a `width × (y2 - y1)` rectangle centred on
the common `x`. -/
def vertFill (c : ℤ) (p1 p2 : ℤ × ℤ) (w : ℤ) : Ev :=
  .fill ⟨p1.1 - pydiv w 2, min p1.2 p2.2, w,
    max p1.2 p2.2 - min p1.2 p2.2⟩ c

/-- Horizontal fast path: fill a `(x2 - x1) × width` rectangle centred on
the common `y`. -/
def horizFill (c : ℤ) (p1 p2 : ℤ × ℤ) (w : ℤ) : Ev :=
  .fill ⟨min p1.1 p2.1, p1.2 - pydiv w 2,
    max p1.1 p2.1 - min p1.1 p2.1, w⟩ c

/-- Embedding of the recursive call `line(surface, color, q1, q2, 1)` made
by the thick-line loop: the color is already a resolved integer (so
`_get_color` passes it through), `1 < 1` is false so the thick branch is
not taken, and the call dispatches to the vertical, horizontal or thin
path. -/
def lineUnit (s : Surface) (c : ℤ) (p1 p2 : ℤ × ℤ) :
    List Ev × Except DrawErr (Option Rct) :=
  if p1.1 = p2.1 then ([vertFill c p1 p2 1], .ok none)
  else if p1.2 = p2.2 then ([horizFill c p1 p2 1], .ok none)
  else lineThin s c p1 p2

/-- Sequential composition of drawing calls: events accumulate in order
and the first raised error aborts the remaining calls (Python exception
propagation). -/
def chain : List (List Ev × Except DrawErr (Option Rct)) →
    List Ev × Option DrawErr
  | [] => ([], none)
  | (ev, .error e) :: _ => (ev, some e)
  | (ev, .ok _) :: rest =>
    let (ev2, r) := chain rest
    (ev ++ ev2, r)

/-- Thick-line decomposition loop: `width` unit-line calls offset one
pixel apart along the minor axis, run in sequence with exception
propagation (`for i in range(width): line(surface, color, ..., 1)`). -/
def thickChain (s : Surface) (c : ℤ) (p1 p2 : ℤ × ℤ) (w : ℤ) :
    List Ev × Option DrawErr :=
  let xinc : ℤ := if |p2.1 - p1.1| > |p2.2 - p1.2| then 0 else 1
  let yinc : ℤ := if |p2.1 - p1.1| > |p2.2 - p1.2| then 1 else 0
  let ox := pydiv (w * xinc) 2
  let oy := pydiv (w * yinc) 2
  chain ((List.range w.toNat).map fun n =>
    lineUnit s c (p1.1 - ox + (n : ℤ) * xinc, p1.2 - oy + (n : ℤ) * yinc)
      (p2.1 - ox + (n : ℤ) * xinc, p2.2 - oy + (n : ℤ) * yinc))

/-- Body of `line` after the width check and color resolution: vertical
and horizontal fast paths, the thick decomposition into `width` parallel
unit lines offset along the minor axis, and the thin Bresenham path. -/
def lineCore (s : Surface) (c : ℤ) (p1 p2 : ℤ × ℤ) (w : ℤ) :
    List Ev × Except DrawErr (Option Rct) :=
  if p1.1 = p2.1 then ([vertFill c p1 p2 w], .ok none)
  else if p1.2 = p2.2 then ([horizFill c p1 p2 w], .ok none)
  else if 1 < w then
    let run := thickChain s c p1 p2 w
    (run.1, match run.2 with | some e => .error e | none => .ok none)
  else lineThin s c p1 p2

/-- Embedding of `draw.line`: no-op for `width < 1` (before the color is
even looked at), then color resolution, then the rasterizer body.  The
source always returns `None` (its bounding-box computation is marked
`XXX` and unimplemented). -/
def lineDraw (s : Surface) (col : ColorArg) (p1 p2 : ℤ × ℤ) (w : ℤ) :
    List Ev × Except DrawErr (Option Rct) :=
  if w < 1 then ([], .ok none)
  else
    match getColor col s with
    | .error e => ([], .error e)
    | .ok c => lineCore s c p1 p2 w

/-- Segment loop of `draw.lines`: one `line` call per consecutive vertex
pair, plus the closing segment when `closed`, run in sequence with
exception propagation; each call receives the already-resolved integer
color. -/
def segChain (s : Surface) (c : ℤ) (closed : Bool) (p : ℤ × ℤ)
    (ps : List (ℤ × ℤ)) (w : ℤ) : List Ev × Option DrawErr :=
  chain ((List.zip (p :: ps) ps ++
      (if closed then [(ps.getLastD p, p)] else [])).map
    fun sg => lineDraw s (.px c) sg.1 sg.2 w)

/-- Embedding of `draw.lines`: no-op for `width < 1`, color resolution,
the two-point check, then one `line` call per consecutive pair (the color
passed on is the already-resolved integer), plus the closing segment when
`closed`.  Always returns `None` on success. -/
def linesDraw (s : Surface) (col : ColorArg) (closed : Bool)
    (pts : List (ℤ × ℤ)) (w : ℤ) : List Ev × Except DrawErr (Option Rct) :=
  if w < 1 then ([], .ok none)
  else
    match getColor col s with
    | .error e => ([], .error e)
    | .ok c =>
      match pts with
      | p :: q :: rest =>
        let run := segChain s c closed p (q :: rest) w
        (run.1, match run.2 with | some e => .error e | none => .ok none)
      | _ => ([], .error .insufficientPoints)

/-! ### The rectangle drawer (`rect`) -/

/-- Modelled from the spec: `pygame.rect.Rect.normalize` (not under src/)
flips a negative width or height over the origin so the covered region is
unchanged (spec section 4.2). -/
def normRect (r : Rct) : Rct :=
  ⟨if r.w < 0 then r.x + r.w else r.x,
   if r.h < 0 then r.y + r.h else r.y,
   if r.w < 0 then -r.w else r.w,
   if r.h < 0 then -r.h else r.h⟩

/-- Embedding of `draw.rect`: color resolution, rectangle normalization,
then either a single fill (`width == 0`) or four border bands; the
normalized input rectangle is returned in both cases. -/
def rectDraw (s : Surface) (col : ColorArg) (rc : Rct) (w : ℤ) :
    List Ev × Except DrawErr (Option Rct) :=
  match getColor col s with
  | .error e => ([], .error e)
  | .ok c =>
    let nr := normRect rc
    if w = 0 then ([.fill nr c], .ok (some nr))
    else
      let hw := pydiv w 2
      ([.fill ⟨nr.x, nr.y - hw, nr.w, w⟩ c,
        .fill ⟨nr.x, nr.y - hw + nr.h, nr.w, w⟩ c,
        .fill ⟨nr.x - hw, nr.y, w, nr.h + 1⟩ c,
        .fill ⟨nr.x - hw + nr.w, nr.y, w, nr.h + 1⟩ c], .ok (some nr))

/-! ### The polygon filler (`polygon`)

Edge records hold the current x-intercept and the inverse slope as exact
rationals (floats in the source), and the active y-span as integers. -/

structure Edge where
  x : ℚ
  ylo : ℤ
  yhi : ℤ
  slope : ℚ
  deriving DecidableEq

/-- Truncation toward zero of an exact rational, Python `int()` on the
corresponding float. -/
def pytruncQ (q : ℚ) : ℤ := q.num.tdiv q.den

/-- Edge-list construction loop of `polygon`: one record per
non-horizontal side (oriented so `ylo < yhi`), while the vertex bounding
box accumulates (`miny`/`maxy` only from non-horizontal sides, as in the
source). -/
def polyAux : (ℤ × ℤ) → List (ℤ × ℤ) → List Edge → ℤ → ℤ → ℤ → ℤ →
    List Edge × ℤ × ℤ × ℤ × ℤ
  | _, [], es, miny, maxy, minx, maxx => (es, miny, maxy, minx, maxx)
  | p, q :: qs, es, miny, maxy, minx, maxx =>
    if q.2 > p.2 then
      polyAux q qs
        (es ++ [⟨(p.1 : ℚ), p.2, q.2, ((q.1 : ℚ) - p.1) / ((q.2 : ℚ) - p.2)⟩])
        (min miny p.2) (max maxy q.2)
        (min minx (min p.1 q.1)) (max maxx (max p.1 q.1))
    else if q.2 < p.2 then
      polyAux q qs
        (es ++ [⟨(q.1 : ℚ), q.2, p.2, ((p.1 : ℚ) - q.1) / ((p.2 : ℚ) - q.2)⟩])
        (min miny q.2) (max maxy p.2)
        (min minx (min p.1 q.1)) (max maxx (max p.1 q.1))
    else
      polyAux q qs es miny maxy
        (min minx (min p.1 q.1)) (max maxx (max p.1 q.1))

/-- Edge activity test of the scan loop: `y >= e[1] and y < e[2]`. -/
def activeB (y : ℤ) (e : Edge) : Bool := decide (e.ylo ≤ y ∧ y < e.yhi)

/-- Stable insertion into a list sorted by current x-intercept. -/
def insertEdge (e : Edge) : List Edge → List Edge
  | [] => [e]
  | f :: fs => if e.x < f.x then e :: f :: fs else f :: insertEdge e fs

/-- Stable ascending sort by current x-intercept
(`scan_edges.sort(lambda a,b: cmp(a[0], b[0]))`). -/
def sortEdges : List Edge → List Edge
  | [] => []
  | e :: es => insertEdge e (sortEdges es)

/-- Span fills between successive pairs of the sorted active edges:
`r.x = int(scan_edges[i][0]); r.w = int(scan_edges[i+1][0]) - r.x;
r.h = 1`. -/
def pairFills (c y : ℤ) : List Edge → List Ev
  | a :: b :: rest =>
    .fill ⟨pytruncQ a.x, y, pytruncQ b.x - pytruncQ a.x, 1⟩ c ::
      pairFills c y rest
  | _ => []

/-- Post-scanline advance of the x-intercepts of the active edges
(`scan_edges[i][0] += scan_edges[i][3]`, applied to every active edge). -/
def advanceAll (y : ℤ) (es : List Edge) : List Edge :=
  es.map fun e => if activeB y e then { e with x := e.x + e.slope } else e

/-- Scanline loop of the polygon fill: per scanline, select the active
edges, assert that their count is even (an odd count raises the
`AssertionError`, aborting with the events of the previous scanlines
already written), sort, fill spans between successive pairs, and advance
the active x-intercepts. -/
def scanFill (c : ℤ) : List ℤ → List Edge → List Ev × Option DrawErr
  | [], _ => ([], none)
  | y :: ys, es =>
    let act := es.filter (activeB y)
    if act.length % 2 ≠ 0 then ([], some .evenCountAssert)
    else
      let evs := pairFills c y (sortEdges act)
      let (ev2, r) := scanFill c ys (advanceAll y es)
      (evs ++ ev2, r)

/-- Integer range `[a, b)` as a list (`range(a, b)`). -/
def intRange (a b : ℤ) : List ℤ :=
  (List.range (b - a).toNat).map fun n => a + n

/-- Embedding of `draw.polygon`: a positive width delegates entirely to
`lines` with `closed=True`; otherwise color resolution, the three-point
check, edge-list construction, clamping of the scan range to the clip
rectangle in y, the scanline fill, and the coarse vertex bounding box as
the returned rectangle. -/
def polygonDraw (s : Surface) (col : ColorArg) (pts : List (ℤ × ℤ))
    (w : ℤ) : List Ev × Except DrawErr (Option Rct) :=
  if 0 < w then linesDraw s col true pts w
  else
    match getColor col s with
    | .error e => ([], .error e)
    | .ok c =>
      if pts.length < 3 then ([], .error .insufficientPoints)
      else
        match pts with
        | [] => ([], .error .insufficientPoints)
        | p :: ps =>
          let st := polyAux p (ps ++ [p]) [] p.2 p.2 p.1 p.1
          let miny := max st.2.1 s.clip.y
          let maxy := min (st.2.2.1 + 1) (s.clip.y + s.clip.h)
          let run := scanFill c (intRange miny maxy) st.1
          (run.1, match run.2 with
            | some e => .error e
            | none => .ok (some ⟨st.2.2.2.1, miny,
                st.2.2.2.2 - st.2.2.2.1 + 1, maxy - miny + 1⟩))

/-- Concrete sample surface used by witnesses: 10 × 10 pixels, full clip,
pitch 10, 4 bytes per pixel. -/
def sampleSurf : Surface :=
  ⟨10, 10, ⟨0, 0, 10, 10⟩, 10, 4,
    fun r g b a => ((r * 256 + g) * 256 + b) * 256 + a⟩

/-- C5: `draw_polygon` with positive width delegates entirely to
`draw_lines` with `closed=True` on the same surface, color, vertices and
width — the full result (write events and return value) coincides, hence
so does the final pixel buffer; no fill logic runs. -/
theorem claim_C5 (s : Surface) (col : ColorArg) (pts : List (ℤ × ℤ))
    (w : ℤ) (hw : 0 < w) :
    polygonDraw s col pts w = linesDraw s col true pts w ∧
    ∀ bf : ℤ → ℤ, applyEvs s (polygonDraw s col pts w).1 bf =
      applyEvs s (linesDraw s col true pts w).1 bf := by
  have h : polygonDraw s col pts w = linesDraw s col true pts w := by
    unfold polygonDraw
    rw [if_pos hw]
  exact ⟨h, fun bf => by rw [h]⟩

/-- Witness for C5 at a concrete triangle with width 1. -/
theorem claim_C5_witness :
    (0 : ℤ) < 1 ∧
    polygonDraw sampleSurf (.px 3) [(1, 1), (5, 1), (5, 4)] 1 =
      linesDraw sampleSurf (.px 3) true [(1, 1), (5, 1), (5, 4)] 1 :=
  ⟨by decide,
    (claim_C5 sampleSurf (.px 3) [(1, 1), (5, 1), (5, 4)] 1 (by decide)).1⟩

/-- C7: `draw_line` and `draw_lines` with `width < 1` perform no write
event, leave any pixel buffer unchanged, and return the "nothing drawn"
signal (`None`) — before even looking at the color. -/
theorem claim_C7 (s : Surface) (col : ColorArg) (p1 p2 : ℤ × ℤ)
    (closed : Bool) (pts : List (ℤ × ℤ)) (w : ℤ) (hw : w < 1) :
    lineDraw s col p1 p2 w = ([], .ok none) ∧
    (∀ bf : ℤ → ℤ, applyEvs s (lineDraw s col p1 p2 w).1 bf = bf) ∧
    linesDraw s col closed pts w = ([], .ok none) ∧
    (∀ bf : ℤ → ℤ, applyEvs s (linesDraw s col closed pts w).1 bf = bf) := by
  have h1 : lineDraw s col p1 p2 w = ([], .ok none) := by
    unfold lineDraw
    rw [if_pos hw]
  have h2 : linesDraw s col closed pts w = ([], .ok none) := by
    unfold linesDraw
    rw [if_pos hw]
  refine ⟨h1, fun bf => ?_, h2, fun bf => ?_⟩
  · rw [h1]; rfl
  · rw [h2]; rfl


/-- Witness for C7 at width 0. -/
theorem claim_C7_witness :
    (0 : ℤ) < 1 ∧
    lineDraw sampleSurf (.px 3) (1, 1) (7, 4) 0 = ([], .ok none) :=
  ⟨by decide,
    (claim_C7 sampleSurf (.px 3) (1, 1) (7, 4) false [] 0 (by decide)).1⟩

/-- C10: in `draw_line` the `width < 1` check precedes color resolution:
with an invalid color argument and `width < 1` the call returns the
"nothing drawn" signal without raising, whereas with `width ≥ 1` the
invalid color raises before any geometry processing (no write events). -/
theorem claim_C10 (s : Surface) (p1 p2 : ℤ × ℤ) (w : ℤ) :
    (w < 1 → lineDraw s .other p1 p2 w = ([], .ok none)) ∧
    (1 ≤ w → lineDraw s .other p1 p2 w = ([], .error .invalidColor)) := by
  constructor
  · intro hw
    unfold lineDraw
    rw [if_pos hw]
  · intro hw
    unfold lineDraw
    rw [if_neg (by omega)]
    rfl

/-- Witness for C10 at widths 0 and 1. -/
theorem claim_C10_witness :
    lineDraw sampleSurf .other (1, 1) (7, 4) 0 = ([], .ok none) ∧
    lineDraw sampleSurf .other (1, 1) (7, 4) 1 =
      ([], .error .invalidColor) :=
  ⟨(claim_C10 sampleSurf (1, 1) (7, 4) 0).1 (by decide),
   (claim_C10 sampleSurf (1, 1) (7, 4) 1).2 (by decide)⟩

/-- C2 (code bug): `draw.line` draws pixels — here the horizontal segment
`(1,1)-(3,1)` with width 1 fills two pixels, changing pixel `(1,1)` from
0 to color 1 — yet returns `None`, the "nothing drawn" signal (the
source's bounding-box computation is left unimplemented, marked
`XXX return clipped rect`), contradicting its own docstring
(":return: Affected bounding box") and the claim that the nothing-drawn
signal is returned only when no pixel was touched. -/
theorem claim_C2 :
    (lineDraw sampleSurf (.px 1) (1, 1) (3, 1) 1).2 = .ok none ∧
    applyEvs sampleSurf (lineDraw sampleSurf (.px 1) (1, 1) (3, 1) 1).1
      (fun _ => 0) 11 = 1 ∧
    (1 : ℤ) ≠ 0 := by
  refine ⟨rfl, by decide, by decide⟩

/-- C9: drawing any one shape (rect, polygon, line, lines) twice in
succession with the same surface, color, geometry and width yields the
same final pixel buffer as drawing it once.  The operations never read
the pixel buffer (it is not even an input of the event generators), so
the second call produces the identical event list, and every event
stores its color absolutely — `applyEvs` is idempotent. -/
theorem claim_C9 (s : Surface) (bf : ℤ → ℤ) :
    (∀ (col : ColorArg) (rc : Rct) (w : ℤ),
      applyEvs s (rectDraw s col rc w).1
          (applyEvs s (rectDraw s col rc w).1 bf) =
        applyEvs s (rectDraw s col rc w).1 bf) ∧
    (∀ (col : ColorArg) (pts : List (ℤ × ℤ)) (w : ℤ),
      applyEvs s (polygonDraw s col pts w).1
          (applyEvs s (polygonDraw s col pts w).1 bf) =
        applyEvs s (polygonDraw s col pts w).1 bf) ∧
    (∀ (col : ColorArg) (p1 p2 : ℤ × ℤ) (w : ℤ),
      applyEvs s (lineDraw s col p1 p2 w).1
          (applyEvs s (lineDraw s col p1 p2 w).1 bf) =
        applyEvs s (lineDraw s col p1 p2 w).1 bf) ∧
    (∀ (col : ColorArg) (closed : Bool) (pts : List (ℤ × ℤ)) (w : ℤ),
      applyEvs s (linesDraw s col closed pts w).1
          (applyEvs s (linesDraw s col closed pts w).1 bf) =
        applyEvs s (linesDraw s col closed pts w).1 bf) :=
  ⟨fun col rc w => applyEvs_idem s (rectDraw s col rc w).1 bf,
   fun col pts w => applyEvs_idem s (polygonDraw s col pts w).1 bf,
   fun col p1 p2 w => applyEvs_idem s (lineDraw s col p1 p2 w).1 bf,
   fun col closed pts w =>
     applyEvs_idem s (linesDraw s col closed pts w).1 bf⟩

/-! ### Error taxonomy helper lemmas -/

theorem getColor_err {col : ColorArg} {s : Surface} {e : DrawErr}
    (h : getColor col s = .error e) : e = .invalidColor := by
  cases col <;> simp_all [getColor, rgbaFromObj]

theorem lineThin_snd (s : Surface) (c : ℤ) (p1 p2 : ℤ × ℤ) :
    (lineThin s c p1 p2).2 = .ok none ∨
    (lineThin s c p1 p2).2 = .error .unsupportedFormat := by
  unfold lineThin
  by_cases hb : s.bpp = 3
  · rw [if_pos hb]; right; rfl
  · rw [if_neg hb]
    split <;> exact Or.inl rfl

theorem lineUnit_snd (s : Surface) (c : ℤ) (p1 p2 : ℤ × ℤ) :
    (lineUnit s c p1 p2).2 = .ok none ∨
    (lineUnit s c p1 p2).2 = .error .unsupportedFormat := by
  unfold lineUnit
  split_ifs
  · exact Or.inl rfl
  · exact Or.inl rfl
  · exact lineThin_snd s c p1 p2

theorem chain_snd (l : List (List Ev × Except DrawErr (Option Rct)))
    (h : ∀ x ∈ l, x.2 = .ok none ∨ x.2 = .error .unsupportedFormat) :
    (chain l).2 = none ∨ (chain l).2 = some .unsupportedFormat := by
  induction l with
  | nil => exact Or.inl rfl
  | cons hd tl ih =>
    obtain ⟨ev, r⟩ := hd
    cases r with
    | error e =>
      have he := h (ev, .error e) (by simp)
      simp only [chain]
      rcases he with he | he
      · exact absurd he (by simp)
      · right
        simp only [Except.error.injEq] at he
        rw [he]
    | ok v =>
      simp only [chain]
      exact ih fun x hx => h x (List.mem_cons_of_mem _ hx)

theorem thickChain_snd (s : Surface) (c : ℤ) (p1 p2 : ℤ × ℤ) (w : ℤ) :
    (thickChain s c p1 p2 w).2 = none ∨
    (thickChain s c p1 p2 w).2 = some .unsupportedFormat := by
  unfold thickChain
  exact chain_snd _ (by
    intro x hx
    obtain ⟨n, _, rfl⟩ := List.mem_map.mp hx
    exact lineUnit_snd s c _ _)

theorem lineCore_snd (s : Surface) (c : ℤ) (p1 p2 : ℤ × ℤ) (w : ℤ) :
    (lineCore s c p1 p2 w).2 = .ok none ∨
    (lineCore s c p1 p2 w).2 = .error .unsupportedFormat := by
  unfold lineCore
  split_ifs with h1 h2 h3
  · exact Or.inl rfl
  · exact Or.inl rfl
  · rcases thickChain_snd s c p1 p2 w with h | h <;> simp [h]
  · exact lineThin_snd s c p1 p2

theorem lineDraw_px_snd (s : Surface) (c : ℤ) (p1 p2 : ℤ × ℤ) (w : ℤ) :
    (lineDraw s (.px c) p1 p2 w).2 = .ok none ∨
    (lineDraw s (.px c) p1 p2 w).2 = .error .unsupportedFormat := by
  unfold lineDraw
  split_ifs with h1
  · exact Or.inl rfl
  · exact lineCore_snd s c p1 p2 w

theorem segChain_snd (s : Surface) (c : ℤ) (closed : Bool) (p : ℤ × ℤ)
    (ps : List (ℤ × ℤ)) (w : ℤ) :
    (segChain s c closed p ps w).2 = none ∨
    (segChain s c closed p ps w).2 = some .unsupportedFormat := by
  unfold segChain
  exact chain_snd _ (by
    intro x hx
    obtain ⟨sg, _, rfl⟩ := List.mem_map.mp hx
    exact lineDraw_px_snd s c sg.1 sg.2 w)

theorem linesDraw_ok_snd {s : Surface} {col : ColorArg} {c : ℤ}
    {closed : Bool} {pts : List (ℤ × ℤ)} {w : ℤ}
    (hcol : getColor col s = .ok c) (hw : 1 ≤ w) (hl : 2 ≤ pts.length) :
    (linesDraw s col closed pts w).2 = .ok none ∨
    (linesDraw s col closed pts w).2 = .error .unsupportedFormat := by
  unfold linesDraw
  rw [if_neg (by omega), hcol]
  rcases pts with _ | ⟨p, _ | ⟨q, rest⟩⟩
  · exact absurd hl (by simp)
  · exact absurd hl (by simp)
  · rcases segChain_snd s c closed p (q :: rest) w with h | h <;> simp [h]

/-- C6 (amended): with a valid color and `width ≥ 1`, `draw_lines` with
fewer than 2 points raises the insufficient-points error before any pixel
is written; `draw_polygon` with `width ≥ 1` delegates to `draw_lines`
before its own 3-point check, which therefore never runs — it raises the
insufficient-points error exactly when fewer than 2 points are given, and
with 2 or more points (in particular with exactly 2, fewer than its
nominal minimum of 3) it raises no insufficient-points error at all.
With `width ≤ 0` (the fill path) `draw_polygon` with fewer than 3 points
raises the insufficient-points error before any pixel is written. -/
theorem claim_C6 (s : Surface) (col : ColorArg) (c : ℤ) (closed : Bool)
    (pts : List (ℤ × ℤ)) (w : ℤ) (hcol : getColor col s = .ok c) :
    (1 ≤ w → pts.length < 2 →
      linesDraw s col closed pts w = ([], .error .insufficientPoints)) ∧
    (1 ≤ w → pts.length < 2 →
      polygonDraw s col pts w = ([], .error .insufficientPoints)) ∧
    (1 ≤ w → 2 ≤ pts.length →
      (polygonDraw s col pts w).2 ≠ .error .insufficientPoints) ∧
    (w ≤ 0 → pts.length < 3 →
      polygonDraw s col pts w = ([], .error .insufficientPoints)) := by
  have hlines : 1 ≤ w → pts.length < 2 →
      linesDraw s col closed pts w = ([], .error .insufficientPoints) := by
    intro hw hl
    unfold linesDraw
    rw [if_neg (by omega), hcol]
    rcases pts with _ | ⟨p, _ | ⟨q, rest⟩⟩
    · rfl
    · rfl
    · exact absurd hl (by simp)
  refine ⟨hlines, ?_, ?_, ?_⟩
  · intro hw hl
    unfold polygonDraw
    rw [if_pos (by omega)]
    have h2 : 1 ≤ w → pts.length < 2 →
        linesDraw s col true pts w = ([], .error .insufficientPoints) := by
      intro hw2 hl2
      unfold linesDraw
      rw [if_neg (by omega), hcol]
      rcases pts with _ | ⟨p, _ | ⟨q, rest⟩⟩
      · rfl
      · rfl
      · exact absurd hl2 (by simp)
    exact h2 hw hl
  · intro hw hl
    unfold polygonDraw
    rw [if_pos (by omega)]
    rcases @linesDraw_ok_snd s col c true pts w hcol hw hl with h | h <;>
      simp [h]
  · intro hw hl
    unfold polygonDraw
    rw [if_neg (by omega), hcol]
    simp [hl]

/-- Counterexample to C6 as stated: `draw_polygon` with width 1 and only
2 points (fewer than 3) raises nothing — it delegates to `draw_lines`,
which accepts 2 points and draws, so no `InsufficientPointsError`
occurs. -/
theorem claim_C6_counterexample :
    (polygonDraw sampleSurf (.px 1) [(0, 0), (3, 0)] 1).2 = .ok none := rfl

/-- Witness for the amended C6 at concrete inputs. -/
theorem claim_C6_witness :
    linesDraw sampleSurf (.px 5) false [(0, 0)] 1 =
      ([], .error .insufficientPoints) ∧
    polygonDraw sampleSurf (.px 5) [(0, 0)] 1 =
      ([], .error .insufficientPoints) ∧
    (polygonDraw sampleSurf (.px 5) [(0, 0), (3, 0)] 1).2 ≠
      .error .insufficientPoints ∧
    polygonDraw sampleSurf (.px 5) [(0, 0), (3, 0)] 0 =
      ([], .error .insufficientPoints) := by
  obtain ⟨h1, h2, h3, h4⟩ :=
    claim_C6 sampleSurf (.px 5) 5 false [(0, 0)] 1 rfl
  obtain ⟨_, _, h3', h4'⟩ :=
    claim_C6 sampleSurf (.px 5) 5 false [(0, 0), (3, 0)] 1 rfl
  obtain ⟨_, _, _, h4''⟩ :=
    claim_C6 sampleSurf (.px 5) 5 false [(0, 0), (3, 0)] 0 rfl
  exact ⟨h1 (by decide) (by decide), h2 (by decide) (by decide),
    h3' (by decide) (by decide), h4'' (by decide) (by decide)⟩

/-! ### Even active-edge counts (the polygon fill's assertion)

For a scanline `y`, a polygon side between vertices `p` and `q` produces
an active edge exactly when `p.y ≤ y` and `q.y ≤ y` disagree, so the
active count equals the number of sign changes of `(vertex.y ≤ y)` along
the closed vertex cycle — always an even number. -/

/-- Number of adjacent disagreements along the boolean path
`a, l₀, l₁, …`. -/
def pathMis (a : Bool) : List Bool → ℕ
  | [] => 0
  | b :: bs => (if a = b then 0 else 1) + pathMis b bs

theorem pathMis_parity (l : List Bool) :
    ∀ a b : Bool, pathMis a (l ++ [b]) % 2 = if a = b then 0 else 1 := by
  induction l with
  | nil => intro a b; cases a <;> cases b <;> rfl
  | cons c l ih =>
    intro a b
    have h := ih c b
    show ((if a = c then 0 else 1) + pathMis c (l ++ [b])) % 2 = _
    cases a <;> cases b <;> cases c <;> simp_all <;> omega

theorem pathMis_cycle_even (a : Bool) (l : List Bool) :
    Even (pathMis a (l ++ [a])) := by
  have h := pathMis_parity l a a
  simp only [if_pos rfl] at h
  exact Nat.even_iff.mpr h

theorem active_mis_up {py qy y : ℤ} (h : py < qy) :
    (if decide (py ≤ y ∧ y < qy) = true then (1 : ℕ) else 0) =
    (if decide (py ≤ y) = decide (qy ≤ y) then 0 else 1) := by
  by_cases hp : py ≤ y <;> by_cases hq : qy ≤ y <;> simp [hp, hq] <;> omega

theorem active_mis_down {py qy y : ℤ} (h : qy < py) :
    (if decide (qy ≤ y ∧ y < py) = true then (1 : ℕ) else 0) =
    (if decide (py ≤ y) = decide (qy ≤ y) then 0 else 1) := by
  by_cases hp : py ≤ y <;> by_cases hq : qy ≤ y <;> simp [hp, hq] <;> omega

theorem polyAux_count (y : ℤ) :
    ∀ (ql : List (ℤ × ℤ)) (p : ℤ × ℤ) (es : List Edge) (a b c d : ℤ),
      (((polyAux p ql es a b c d).1.filter (activeB y)).length : ℕ) =
        ((es.filter (activeB y)).length : ℕ) +
          pathMis (decide (p.2 ≤ y)) (ql.map fun q => decide (q.2 ≤ y)) := by
  intro ql
  induction ql with
  | nil => intro p es a b c d; simp [polyAux, pathMis]
  | cons q qs ih =>
    intro p es a b c d
    by_cases h1 : q.2 > p.2
    · simp only [polyAux, if_pos h1]
      rw [ih]
      simp only [List.filter_append, List.length_append, List.map_cons,
        pathMis]
      have he : (List.filter (activeB y)
          [Edge.mk (p.1 : ℚ) p.2 q.2
            (((q.1 : ℚ) - p.1) / ((q.2 : ℚ) - p.2))]).length =
          if activeB y (Edge.mk (p.1 : ℚ) p.2 q.2
            (((q.1 : ℚ) - p.1) / ((q.2 : ℚ) - p.2))) then 1 else 0 := by
        by_cases ha : activeB y (Edge.mk (p.1 : ℚ) p.2 q.2
            (((q.1 : ℚ) - p.1) / ((q.2 : ℚ) - p.2))) <;>
          simp [List.filter, ha]
      rw [he, show activeB y (Edge.mk (p.1 : ℚ) p.2 q.2
          (((q.1 : ℚ) - p.1) / ((q.2 : ℚ) - p.2))) =
          decide (p.2 ≤ y ∧ y < q.2) from rfl, active_mis_up h1]
      ring
    · by_cases h2 : q.2 < p.2
      · simp only [polyAux, if_neg h1, if_pos h2]
        rw [ih]
        simp only [List.filter_append, List.length_append, List.map_cons,
          pathMis]
        have he : (List.filter (activeB y)
            [Edge.mk (q.1 : ℚ) q.2 p.2
              (((p.1 : ℚ) - q.1) / ((p.2 : ℚ) - q.2))]).length =
            if activeB y (Edge.mk (q.1 : ℚ) q.2 p.2
              (((p.1 : ℚ) - q.1) / ((p.2 : ℚ) - q.2))) then 1 else 0 := by
          by_cases ha : activeB y (Edge.mk (q.1 : ℚ) q.2 p.2
              (((p.1 : ℚ) - q.1) / ((p.2 : ℚ) - q.2))) <;>
            simp [List.filter, ha]
        rw [he, show activeB y (Edge.mk (q.1 : ℚ) q.2 p.2
            (((p.1 : ℚ) - q.1) / ((p.2 : ℚ) - q.2))) =
            decide (q.2 ≤ y ∧ y < p.2) from rfl, active_mis_down h2]
        ring
      · have heq : p.2 = q.2 := by omega
        simp only [polyAux, if_neg h1, if_neg h2]
        rw [ih]
        simp only [List.map_cons, pathMis, heq]
        simp

/-- Edge list of the polygon fill, as built by the source's loop over the
vertex cycle. -/
def polyEdges (pts : List (ℤ × ℤ)) : List Edge :=
  match pts with
  | [] => []
  | p :: ps => (polyAux p (ps ++ [p]) [] p.2 p.2 p.1 p.1).1

/-- Every polygon (convex or not) has an even number of active edges on
every scanline. -/
theorem polyEdges_even (pts : List (ℤ × ℤ)) (y : ℤ) :
    Even ((polyEdges pts).filter (activeB y)).length := by
  cases pts with
  | nil => simp [polyEdges]
  | cons p ps =>
    show Even (((polyAux p (ps ++ [p]) [] p.2 p.2 p.1 p.1).1.filter
      (activeB y)).length)
    rw [polyAux_count y (ps ++ [p]) p [] p.2 p.2 p.1 p.1]
    simp only [List.filter_nil, List.length_nil, Nat.zero_add,
      List.map_append, List.map_cons, List.map_nil]
    exact pathMis_cycle_even (decide (p.2 ≤ y))
      (ps.map fun q => decide (q.2 ≤ y))

/-- Advancing x-intercepts does not change which edges are active. -/
theorem advanceAll_count (y y' : ℤ) (es : List Edge) :
    ((advanceAll y es).filter (activeB y')).length =
      (es.filter (activeB y')).length := by
  induction es with
  | nil => rfl
  | cons e es ih =>
    have hAct : activeB y' (if activeB y e then
        { e with x := e.x + e.slope } else e) = activeB y' e := by
      by_cases ha : activeB y e
      · rw [if_pos ha]
        cases e
        rfl
      · rw [if_neg ha]
    show ((List.filter (activeB y') ((if activeB y e then
        { e with x := e.x + e.slope } else e) :: advanceAll y es))).length = _
    rw [List.filter_cons, List.filter_cons, hAct]
    by_cases hb : activeB y' e <;> simp [hb, ih]

/-- The scanline loop never trips the even-count assertion when every
scanline of the initial edge list has an even active count. -/
theorem scanFill_none (c : ℤ) :
    ∀ (ys : List ℤ) (es : List Edge),
      (∀ y, (es.filter (activeB y)).length % 2 = 0) →
      (scanFill c ys es).2 = none := by
  intro ys
  induction ys with
  | nil => intro es _; rfl
  | cons y ys ih =>
    intro es h
    show (scanFill c (y :: ys) es).2 = none
    rw [scanFill]
    rw [if_neg (by simp [h y])]
    exact ih (advanceAll y es) fun y' => by
      rw [advanceAll_count]; exact h y'

theorem linesDraw_no_assert (s : Surface) (col : ColorArg) (closed : Bool)
    (pts : List (ℤ × ℤ)) (w : ℤ) :
    (linesDraw s col closed pts w).2 ≠ .error .evenCountAssert := by
  unfold linesDraw
  split_ifs with h1
  · simp
  · cases hcol : getColor col s with
    | error e =>
      have he := getColor_err hcol
      simp [he]
    | ok c =>
      rcases pts with _ | ⟨p, _ | ⟨q, rest⟩⟩
      · simp
      · simp
      · rcases segChain_snd s c closed p (q :: rest) w with h | h <;>
          simp [h]

/-- Cross product of two edge vectors. -/
def cross (u v : ℤ × ℤ) : ℤ := u.1 * v.2 - u.2 * v.1

/-- Consecutive cyclic pairs of a list. -/
def cyclePairs {α : Type} (l : List α) : List (α × α) :=
  match l with
  | [] => []
  | p :: ps => List.zip (p :: ps) (ps ++ [p])

/-- Edge vectors of the closed vertex cycle. -/
def edgeVecs (pts : List (ℤ × ℤ)) : List (ℤ × ℤ) :=
  (cyclePairs pts).map fun pq => (pq.2.1 - pq.1.1, pq.2.2 - pq.1.2)

/-- Convexity (with simplicity) of a vertex cycle: all cross products of
consecutive edge vectors share a sign, i.e. the boundary always turns the
same way. -/
def IsConvexPoly (pts : List (ℤ × ℤ)) : Prop :=
  (∀ uv ∈ cyclePairs (edgeVecs pts), 0 ≤ cross uv.1 uv.2) ∨
  (∀ uv ∈ cyclePairs (edgeVecs pts), cross uv.1 uv.2 ≤ 0)

instance (pts : List (ℤ × ℤ)) : Decidable (IsConvexPoly pts) := by
  unfold IsConvexPoly; infer_instance

/-- C8: for every simple convex polygon with at least 3 vertices filled
with width 0, every scanline sees an even number of active edges in the
fill's edge list (in fact this holds for every closed vertex cycle, by
the cyclic sign-change parity of `vertex.y ≤ y`), and consequently the
even-count assertion in the fill loop never fails: no `polygon` call ever
returns the assertion error. -/
theorem claim_C8 :
    (∀ (pts : List (ℤ × ℤ)) (y : ℤ), 3 ≤ pts.length → IsConvexPoly pts →
      Even ((polyEdges pts).filter (activeB y)).length) ∧
    (∀ (s : Surface) (col : ColorArg) (pts : List (ℤ × ℤ)) (w : ℤ),
      (polygonDraw s col pts w).2 ≠ .error .evenCountAssert) := by
  constructor
  · intro pts y _ _
    exact polyEdges_even pts y
  · intro s col pts w
    unfold polygonDraw
    split_ifs with h1 h3
    · exact linesDraw_no_assert s col true pts w
    · cases hcol : getColor col s with
      | error e =>
        have he := getColor_err hcol
        simp [he]
      | ok c => simp
    · cases hcol : getColor col s with
      | error e =>
        have he := getColor_err hcol
        simp [he]
      | ok c =>
        rcases pts with _ | ⟨p, ps⟩
        · exact absurd (by decide) h3
        · have hrun : (scanFill c
              (intRange (max ((polyAux p (ps ++ [p]) [] p.2 p.2 p.1
                p.1).2.1) s.clip.y)
                (min ((polyAux p (ps ++ [p]) [] p.2 p.2 p.1 p.1).2.2.1 + 1)
                  (s.clip.y + s.clip.h)))
              (polyAux p (ps ++ [p]) [] p.2 p.2 p.1 p.1).1).2 = none :=
            scanFill_none c _ _ fun y' =>
              Nat.even_iff.mp (polyEdges_even (p :: ps) y')
          simp only [hrun]
          simp

/-- Witness for C8 at a concrete convex triangle and scanline. -/
theorem claim_C8_witness :
    3 ≤ ([((0 : ℤ), (0 : ℤ)), (4, 0), (0, 3)] : List (ℤ × ℤ)).length ∧
    IsConvexPoly [((0 : ℤ), (0 : ℤ)), (4, 0), (0, 3)] ∧
    Even ((polyEdges [((0 : ℤ), (0 : ℤ)), (4, 0), (0, 3)]).filter
      (activeB 1)).length :=
  ⟨by decide, by decide,
    claim_C8.1 [((0 : ℤ), (0 : ℤ)), (4, 0), (0, 3)] 1 (by decide)
      (by decide)⟩

/-! ### Clip-confinement of the thin-line raw writes (for C1)

The clipper only accepts segments whose endpoints both carry outcode 0,
i.e. lie inside the inclusive clip box, and the Bresenham walk only
touches pixels inside the bounding box of the clipped endpoints. -/

/-- The clip loop accepts only endpoints with outcode 0. -/
theorem clipF_acc_inv :
    ∀ (n : ℕ) (l r t b x1 y1 x2 y2 a b2 c2 d2 : ℤ),
      clipLineF n l r t b x1 y1 x2 y2 = .acc a b2 c2 d2 →
      epc l r t b a b2 = 0 ∧ epc l r t b c2 d2 = 0 := by
  intro n
  induction n with
  | zero =>
    intro l r t b x1 y1 x2 y2 a b2 c2 d2 h
    exact absurd h (by simp [clipLineF])
  | succ m ih =>
    intro l r t b x1 y1 x2 y2 a b2 c2 d2 h
    by_cases hin : epc l r t b x1 y1 = 0 ∧ epc l r t b x2 y2 = 0
    · rw [clipF_acc m hin.1 hin.2] at h
      injection h with h1 h2 h3 h4
      subst h1; subst h2; subst h3; subst h4
      exact hin
    · by_cases hsh : epc l r t b x1 y1 &&& epc l r t b x2 y2 = 0
      · rw [clipF_step m hin hsh] at h
        exact ih l r t b _ _ _ _ a b2 c2 d2 h
      · rw [clipF_rej m hsh] at h
        exact absurd h (by simp)

/-- Decomposition of the pixels touched by the Bresenham loop: each write
is at offset `i` steps along the major axis and `j` carries along the
minor axis, with the carry count bounded by the accumulated error. -/
theorem bresLoop_mem {dxM dy incx incy c : ℤ} :
    ∀ (n : ℕ) (y pixel : ℤ) (e : Ev),
      e ∈ bresLoop dxM dy incx incy c n y pixel → 0 ≤ y → 0 ≤ dy →
      ∃ i j : ℤ, e = .poke (pixel + i * incx + j * incy) c ∧
        0 ≤ i ∧ i < (n : ℤ) ∧ 0 ≤ j ∧ j * dxM ≤ y + i * dy := by
  intro n
  induction n with
  | zero =>
    intro y pixel e he
    exact absurd he (by simp [bresLoop])
  | succ m ih =>
    intro y pixel e he hy hdy
    rw [bresLoop] at he
    rcases List.mem_cons.mp he with he | he
    · refine ⟨0, 0, ?_, le_refl 0, by omega, le_refl 0, by simpa using hy⟩
      rw [he]
      norm_num
    · by_cases hc : dxM < y + dy
      · rw [if_pos hc] at he
        obtain ⟨i, j, he2, hi0, hin, hj0, hjb⟩ :=
          ih (y + dy - dxM) (pixel + incy + incx) e he (by omega) hdy
        refine ⟨i + 1, j + 1, ?_, by omega, by omega, by omega, ?_⟩
        · rw [he2]
          exact congrArg (fun z => Ev.poke z c) (by ring)
        · linarith
      · rw [if_neg hc] at he
        obtain ⟨i, j, he2, hi0, hin, hj0, hjb⟩ :=
          ih (y + dy) (pixel + incx) e he (by omega) hdy
        refine ⟨i + 1, j, ?_, by omega, by omega, hj0, ?_⟩
        · rw [he2]
          exact congrArg (fun z => Ev.poke z c) (by ring)
        · linarith

/-- A full Bresenham run of `M` steps with spans `M ≥ N ≥ 1` touches only
offsets `0 ≤ i ≤ M - 1` along the major axis and `0 ≤ j ≤ N - 1` along
the minor axis. -/
theorem bresRun_box {M N incA incB c : ℤ} (pixel0 : ℤ) (hM : 1 ≤ M)
    (hN : 1 ≤ N) (e : Ev)
    (he : e ∈ bresLoop M N incA incB c M.toNat 0 pixel0) :
    ∃ i j : ℤ, 0 ≤ i ∧ i ≤ M - 1 ∧ 0 ≤ j ∧ j ≤ N - 1 ∧
      e = .poke (pixel0 + i * incA + j * incB) c := by
  obtain ⟨i, j, he2, hi0, hin, hj0, hjb⟩ :=
    bresLoop_mem M.toNat 0 pixel0 e he (le_refl 0) (by omega)
  have hMn : (M.toNat : ℤ) = M := Int.toNat_of_nonneg (by omega)
  refine ⟨i, j, hi0, by omega, hj0, ?_, he2⟩
  by_contra hcon
  push_neg at hcon
  have h1 : j * M ≤ i * N := by
    have := hjb
    linarith
  have h2 : i * N ≤ (M - 1) * N :=
    mul_le_mul_of_nonneg_right (by omega) (by omega)
  have h3 : N * M ≤ j * M :=
    mul_le_mul_of_nonneg_right (by omega) (by omega)
  nlinarith

/-- Sign factor times its argument is the absolute value, hence
nonnegative. -/
theorem sign_mul_nonneg (d : ℤ) : 0 ≤ (if d < 0 then -1 else 1) * d := by
  by_cases h : d < 0
  · rw [if_pos h]; nlinarith
  · rw [if_neg h]; push_neg at h; nlinarith

/-- An offset of at most `s * d` steps in direction `s` from `x` stays in
the hull of `x` and `x + d`. -/
theorem offset_in_hull {x d j s : ℤ} (hs : s = if d < 0 then -1 else 1)
    (hj0 : 0 ≤ j) (hj1 : j ≤ s * d) :
    min x (x + d) ≤ x + j * s ∧ x + j * s ≤ max x (x + d) := by
  by_cases h : d < 0
  · rw [if_pos h] at hs
    subst hs
    constructor
    · exact le_trans (min_le_right _ _) (by linarith)
    · exact le_trans (by linarith) (le_max_left _ _)
  · rw [if_neg h] at hs
    subst hs
    push_neg at h
    constructor
    · exact le_trans (min_le_left _ _) (by linarith)
    · exact le_trans (by linarith) (le_max_right _ _)

/-- Every raw write of the thin-line walk addresses a pixel inside the
bounding box of the two (clipped) endpoints. -/
theorem thinEvents_box (s : Surface) (c x1 y1 x2 y2 : ℤ) (e : Ev)
    (he : e ∈ thinEvents s c x1 y1 x2 y2) :
    ∃ px py : ℤ, min x1 x2 ≤ px ∧ px ≤ max x1 x2 ∧ min y1 y2 ≤ py ∧
      py ≤ max y1 y2 ∧ e = .poke (py * s.pitch + px) c := by
  unfold thinEvents at he
  simp only at he
  set dx0 := x2 - x1 with hdx0
  set dy0 := y2 - y1 with hdy0
  set signx : ℤ := if dx0 < 0 then -1 else 1 with hsignx
  set signy : ℤ := if dy0 < 0 then -1 else 1 with hsigny
  have hsx : 0 ≤ signx * dx0 := by rw [hsignx]; exact sign_mul_nonneg dx0
  have hsy : 0 ≤ signy * dy0 := by rw [hsigny]; exact sign_mul_nonneg dy0
  have hx2 : x1 + dx0 = x2 := by omega
  have hy2 : y1 + dy0 = y2 := by omega
  by_cases hsw : signx * dx0 + 1 < signy * dy0 + 1
  · rw [if_pos hsw] at he
    obtain ⟨i, j, hi0, hi1, hj0, hj1, he2⟩ :=
      bresRun_box (y1 * s.pitch + x1) (by omega) (by omega) e he
    obtain ⟨hpx1, hpx2⟩ :=
      offset_in_hull hsignx hj0 (show j ≤ signx * dx0 by omega)
    obtain ⟨hpy1, hpy2⟩ :=
      offset_in_hull hsigny hi0 (show i ≤ signy * dy0 by omega)
    rw [hx2] at hpx1 hpx2
    rw [hy2] at hpy1 hpy2
    refine ⟨x1 + j * signx, y1 + i * signy, hpx1, hpx2, hpy1, hpy2, ?_⟩
    rw [he2]
    exact congrArg (fun z => Ev.poke z c) (by ring)
  · rw [if_neg hsw] at he
    obtain ⟨i, j, hi0, hi1, hj0, hj1, he2⟩ :=
      bresRun_box (y1 * s.pitch + x1) (by omega) (by omega) e he
    obtain ⟨hpx1, hpx2⟩ :=
      offset_in_hull hsignx hi0 (show i ≤ signx * dx0 by omega)
    obtain ⟨hpy1, hpy2⟩ :=
      offset_in_hull hsigny hj0 (show j ≤ signy * dy0 by omega)
    rw [hx2] at hpx1 hpx2
    rw [hy2] at hpy1 hpy2
    refine ⟨x1 + i * signx, y1 + j * signy, hpx1, hpx2, hpy1, hpy2, ?_⟩
    rw [he2]
    exact congrArg (fun z => Ev.poke z c) (by ring)

/-- A write event is clip-confined: fills clip internally (by the
`fill_rect` contract), and a raw poke must address, through the surface's
pitch, a pixel inside the clip rectangle. -/
def EvOk (s : Surface) : Ev → Prop
  | .fill _ _ => True
  | .poke i _ =>
    ∃ px py : ℤ, inRectB s.clip px py = true ∧ i = py * s.pitch + px

theorem lineThin_ok (s : Surface) (c : ℤ) (p1 p2 : ℤ × ℤ) :
    ∀ e ∈ (lineThin s c p1 p2).1, EvOk s e := by
  intro e he
  unfold lineThin at he
  split_ifs at he with hb
  · simp at he
  · rcases hcl : clipLine s.clip.x (s.clip.x + s.clip.w - 1) s.clip.y
        (s.clip.y + s.clip.h - 1) p1.1 p1.2 p2.1 p2.2 with
      ⟨a, b2, c2, d2⟩ | _ | _ <;> rw [hcl] at he
    · obtain ⟨px, py, h1, h2, h3, h4, he2⟩ :=
        thinEvents_box s c a b2 c2 d2 e he
      have hina := clipF_acc_inv 8 _ _ _ _ _ _ _ _ _ _ _ _ hcl
      have hb1 := (epc_zero_iff _ _ _ _ a b2).mp hina.1
      have hb2 := (epc_zero_iff _ _ _ _ c2 d2).mp hina.2
      rw [he2]
      exact ⟨px, py, by simp only [inRectB, decide_eq_true_eq]; omega, rfl⟩
    · simp at he
    · simp at he

theorem lineUnit_ok (s : Surface) (c : ℤ) (p1 p2 : ℤ × ℤ) :
    ∀ e ∈ (lineUnit s c p1 p2).1, EvOk s e := by
  intro e he
  unfold lineUnit at he
  split_ifs at he
  · rw [List.mem_singleton] at he
    subst he
    trivial
  · rw [List.mem_singleton] at he
    subst he
    trivial
  · exact lineThin_ok s c p1 p2 e he

theorem chain_mem (l : List (List Ev × Except DrawErr (Option Rct)))
    (e : Ev) (he : e ∈ (chain l).1) : ∃ x ∈ l, e ∈ x.1 := by
  induction l with
  | nil => simp [chain] at he
  | cons hd tl ih =>
    obtain ⟨ev, r⟩ := hd
    cases r with
    | error er =>
      simp only [chain] at he
      exact ⟨(ev, .error er), by simp, he⟩
    | ok v =>
      simp only [chain] at he
      rcases List.mem_append.mp he with h | h
      · exact ⟨(ev, .ok v), by simp, h⟩
      · obtain ⟨x, hx, hex⟩ := ih h
        exact ⟨x, by simp [hx], hex⟩

theorem thickChain_ok (s : Surface) (c : ℤ) (p1 p2 : ℤ × ℤ) (w : ℤ) :
    ∀ e ∈ (thickChain s c p1 p2 w).1, EvOk s e := by
  intro e he
  unfold thickChain at he
  obtain ⟨x, hx, hex⟩ := chain_mem _ e he
  obtain ⟨n, _, rfl⟩ := List.mem_map.mp hx
  exact lineUnit_ok s c _ _ e hex

theorem lineCore_ok (s : Surface) (c : ℤ) (p1 p2 : ℤ × ℤ) (w : ℤ) :
    ∀ e ∈ (lineCore s c p1 p2 w).1, EvOk s e := by
  intro e he
  unfold lineCore at he
  split_ifs at he with h1 h2 h3
  · rw [List.mem_singleton] at he
    subst he
    trivial
  · rw [List.mem_singleton] at he
    subst he
    trivial
  · exact thickChain_ok s c p1 p2 w e he
  · exact lineThin_ok s c p1 p2 e he

theorem lineDraw_ok (s : Surface) (col : ColorArg) (p1 p2 : ℤ × ℤ)
    (w : ℤ) : ∀ e ∈ (lineDraw s col p1 p2 w).1, EvOk s e := by
  intro e he
  unfold lineDraw at he
  split_ifs at he with h1
  · simp at he
  · cases hcol : getColor col s with
    | error er => rw [hcol] at he; simp at he
    | ok c => rw [hcol] at he; exact lineCore_ok s c p1 p2 w e he

theorem segChain_ok (s : Surface) (c : ℤ) (closed : Bool) (p : ℤ × ℤ)
    (ps : List (ℤ × ℤ)) (w : ℤ) :
    ∀ e ∈ (segChain s c closed p ps w).1, EvOk s e := by
  intro e he
  unfold segChain at he
  obtain ⟨x, hx, hex⟩ := chain_mem _ e he
  obtain ⟨sg, _, rfl⟩ := List.mem_map.mp hx
  exact lineDraw_ok s (.px c) sg.1 sg.2 w e hex

theorem linesDraw_ok (s : Surface) (col : ColorArg) (closed : Bool)
    (pts : List (ℤ × ℤ)) (w : ℤ) :
    ∀ e ∈ (linesDraw s col closed pts w).1, EvOk s e := by
  intro e he
  unfold linesDraw at he
  split_ifs at he with h1
  · simp at he
  · cases hcol : getColor col s with
    | error er => rw [hcol] at he; simp at he
    | ok c =>
      rw [hcol] at he
      rcases pts with _ | ⟨p, _ | ⟨q, rest⟩⟩
      · simp at he
      · simp at he
      · exact segChain_ok s c closed p (q :: rest) w e he

theorem pairFills_shape (c y : ℤ) :
    ∀ (l : List Edge) (e : Ev), e ∈ pairFills c y l → ∃ r2 c2, e = .fill r2 c2
  | [], e, he => absurd he (by simp [pairFills])
  | [_], e, he => absurd he (by simp [pairFills])
  | _ :: _ :: rest, e, he => by
    rcases List.mem_cons.mp he with h | h
    · exact ⟨_, _, h⟩
    · exact pairFills_shape c y rest e h

theorem scanFill_shape (c : ℤ) :
    ∀ (ys : List ℤ) (es : List Edge) (e : Ev), e ∈ (scanFill c ys es).1 →
      ∃ r2 c2, e = .fill r2 c2 := by
  intro ys
  induction ys with
  | nil => intro es e he; simp [scanFill] at he
  | cons y ys ih =>
    intro es e he
    rw [scanFill] at he
    split_ifs at he with hodd
    · simp at he
    · rcases List.mem_append.mp he with h | h
      · exact pairFills_shape c y _ e h
      · exact ih (advanceAll y es) e h

theorem polygonDraw_ok (s : Surface) (col : ColorArg)
    (pts : List (ℤ × ℤ)) (w : ℤ) :
    ∀ e ∈ (polygonDraw s col pts w).1, EvOk s e := by
  intro e he
  unfold polygonDraw at he
  split_ifs at he with h1 h3
  · exact linesDraw_ok s col true pts w e he
  · cases hcol : getColor col s with
    | error er => rw [hcol] at he; simp at he
    | ok c => rw [hcol] at he; simp at he
  · cases hcol : getColor col s with
    | error er => rw [hcol] at he; simp at he
    | ok c =>
      rw [hcol] at he
      rcases pts with _ | ⟨p, ps⟩
      · exact absurd (by decide) h3
      · obtain ⟨r2, c2, rfl⟩ := scanFill_shape c _ _ e he
        trivial

theorem rectDraw_ok (s : Surface) (col : ColorArg) (rc : Rct) (w : ℤ) :
    ∀ e ∈ (rectDraw s col rc w).1, EvOk s e := by
  intro e he
  unfold rectDraw at he
  cases hcol : getColor col s with
  | error er => rw [hcol] at he; simp at he
  | ok c =>
    rw [hcol] at he
    split_ifs at he with h1
    · rw [List.mem_singleton] at he
      subst he
      trivial
    · simp only [List.mem_cons, List.mem_singleton] at he
      rcases he with rfl | rfl | rfl | rfl | he
      · trivial
      · trivial
      · trivial
      · trivial
      · simp at he

/-- Two flat indices with in-row columns address the same pixel only if
row and column agree. -/
theorem decode_unique {pitch x px yy py : ℤ} (hp : 0 < pitch)
    (h1 : 0 ≤ x) (h2 : x < pitch) (h3 : 0 ≤ px) (h4 : px < pitch)
    (he : yy * pitch + x = py * pitch + px) : yy = py ∧ x = px := by
  have hk : (yy - py) * pitch = px - x := by ring_nf; linarith
  rcases lt_trichotomy (yy - py) 0 with h | h | h
  · have hb : (yy - py) * pitch ≤ (-1) * pitch :=
      mul_le_mul_of_nonneg_right (by omega) (by omega)
    linarith
  · constructor
    · omega
    · have : (0 : ℤ) * pitch = px - x := by rw [← h]; exact hk
      simp at this
      omega
  · have hb : (1 : ℤ) * pitch ≤ (yy - py) * pitch :=
      mul_le_mul_of_nonneg_right (by omega) (by omega)
    linarith

/-- Clip-confined events do not modify any in-bounds pixel outside the
clip rectangle. -/
theorem applyEvs_outside (s : Surface) (hs : s.Valid) :
    ∀ (es : List Ev), (∀ e ∈ es, EvOk s e) → ∀ (bf : ℤ → ℤ) (x y : ℤ),
      0 ≤ x → x < s.w → 0 ≤ y → y < s.h → inRectB s.clip x y = false →
      applyEvs s es bf (y * s.pitch + x) = bf (y * s.pitch + x) := by
  intro es
  induction es with
  | nil => intro _ bf x y _ _ _ _ _; rfl
  | cons e es ih =>
    intro hok bf x y hx1 hx2 hy1 hy2 hnc
    obtain ⟨hw1, hw2, hw3, hc1, hc2, hc3, hc4⟩ := hs
    have hp : 0 < s.pitch := by omega
    have hdx : (y * s.pitch + x) % s.pitch = x := by
      rw [show y * s.pitch + x = x + s.pitch * y by ring,
        Int.add_mul_emod_self_left]
      exact Int.emod_eq_of_lt hx1 (by omega)
    have hdy : (y * s.pitch + x) / s.pitch = y := by
      rw [show y * s.pitch + x = x + y * s.pitch by ring,
        Int.add_mul_ediv_right x y (by omega)]
      rw [Int.ediv_eq_zero_of_lt hx1 (by omega)]
      omega
    show applyEvs s es (applyEv s e bf) (y * s.pitch + x) = _
    rw [ih (fun e' he' => hok e' (List.mem_cons_of_mem _ he'))
      (applyEv s e bf) x y hx1 hx2 hy1 hy2 hnc]
    cases e with
    | fill r c =>
      show (if fillCovers s r ((y * s.pitch + x) % s.pitch)
          ((y * s.pitch + x) / s.pitch) then c
        else bf (y * s.pitch + x)) = _
      rw [hdx, hdy]
      have : fillCovers s r x y = false := by
        unfold fillCovers
        rw [hnc]
        simp
      rw [this]
      simp
    | poke j c =>
      have hok1 := hok (.poke j c) (List.mem_cons_self _ _)
      obtain ⟨px, py, hcl, rfl⟩ := hok1
      have hclp := of_decide_eq_true hcl
      show (if y * s.pitch + x = py * s.pitch + px then c
        else bf (y * s.pitch + x)) = _
      rw [if_neg ?_]
      intro heq
      obtain ⟨hy, hx⟩ := decode_unique hp hx1 (by omega)
        (by omega) (by omega) heq
      subst hy
      subst hx
      rw [hnc] at hcl
      exact absurd hcl (by simp)

/-- C1: for every drawing operation (rect, polygon, line, lines) on a
valid surface, with any color, geometry and width, no in-bounds pixel
outside the surface's clip rectangle is modified by the generated write
events; and every raw-buffer index written by the thin-line loop of
`line` decodes, through the pitch, to a pixel inside the clip rectangle
(every fill event clips internally by the `fill_rect` contract). -/
theorem claim_C1 (s : Surface) (hs : s.Valid) :
    (∀ (col : ColorArg) (rc : Rct) (w : ℤ) (bf : ℤ → ℤ) (x y : ℤ),
      0 ≤ x → x < s.w → 0 ≤ y → y < s.h → inRectB s.clip x y = false →
      applyEvs s (rectDraw s col rc w).1 bf (y * s.pitch + x) =
        bf (y * s.pitch + x)) ∧
    (∀ (col : ColorArg) (pts : List (ℤ × ℤ)) (w : ℤ) (bf : ℤ → ℤ)
        (x y : ℤ),
      0 ≤ x → x < s.w → 0 ≤ y → y < s.h → inRectB s.clip x y = false →
      applyEvs s (polygonDraw s col pts w).1 bf (y * s.pitch + x) =
        bf (y * s.pitch + x)) ∧
    (∀ (col : ColorArg) (p1 p2 : ℤ × ℤ) (w : ℤ) (bf : ℤ → ℤ) (x y : ℤ),
      0 ≤ x → x < s.w → 0 ≤ y → y < s.h → inRectB s.clip x y = false →
      applyEvs s (lineDraw s col p1 p2 w).1 bf (y * s.pitch + x) =
        bf (y * s.pitch + x)) ∧
    (∀ (col : ColorArg) (closed : Bool) (pts : List (ℤ × ℤ)) (w : ℤ)
        (bf : ℤ → ℤ) (x y : ℤ),
      0 ≤ x → x < s.w → 0 ≤ y → y < s.h → inRectB s.clip x y = false →
      applyEvs s (linesDraw s col closed pts w).1 bf (y * s.pitch + x) =
        bf (y * s.pitch + x)) ∧
    (∀ (col : ColorArg) (p1 p2 : ℤ × ℤ) (w : ℤ),
      ∀ e ∈ (lineDraw s col p1 p2 w).1, EvOk s e) :=
  ⟨fun col rc w bf x y h1 h2 h3 h4 h5 =>
    applyEvs_outside s hs _ (rectDraw_ok s col rc w) bf x y h1 h2 h3 h4 h5,
   fun col pts w bf x y h1 h2 h3 h4 h5 =>
    applyEvs_outside s hs _ (polygonDraw_ok s col pts w) bf x y
      h1 h2 h3 h4 h5,
   fun col p1 p2 w bf x y h1 h2 h3 h4 h5 =>
    applyEvs_outside s hs _ (lineDraw_ok s col p1 p2 w) bf x y
      h1 h2 h3 h4 h5,
   fun col closed pts w bf x y h1 h2 h3 h4 h5 =>
    applyEvs_outside s hs _ (linesDraw_ok s col closed pts w) bf x y
      h1 h2 h3 h4 h5,
   fun col p1 p2 w => lineDraw_ok s col p1 p2 w⟩

/-- Witness for C1: on the sample surface with clip `[0,10) × [0,10)`
shrunk to `[2,8) × [2,8)`, a diagonal line leaves the outside pixel
`(1, 1)` unchanged. -/
def clippedSurf : Surface :=
  ⟨10, 10, ⟨2, 2, 6, 6⟩, 10, 4,
    fun r g b a => ((r * 256 + g) * 256 + b) * 256 + a⟩

theorem claim_C1_witness :
    clippedSurf.Valid ∧
    applyEvs clippedSurf
        (lineDraw clippedSurf (.px 1) (0, 0) (9, 9) 1).1
        (fun _ => 0) (1 * clippedSurf.pitch + 1) =
      (fun _ => (0 : ℤ)) (1 * clippedSurf.pitch + 1) :=
  ⟨by decide,
    (claim_C1 clippedSurf (by decide)).2.2.1 (.px 1) (0, 0) (9, 9) 1
      (fun _ => 0) 1 1 (by decide) (by decide) (by decide) (by decide)
      (by decide)⟩

end Pygame
